import Mathlib

/-!
Verification development for the StatUS (Hexathello) repository.

The definitions below are a shallow embedding of the Python sources
`hexathello/Engine.py`, `hexathello/history.py` and `hexathello/jable.py`:

* Python `dict` board states keyed by `(q, r)` become association lists
  `List (QR × CellStatus)`; the dictionary's key uniqueness becomes a
  `Nodup` hypothesis on the key list where a proof needs it.
* Python exceptions (`raise`, failed `assert`, `KeyError`, `IndexError`,
  `ValueError`) become `Except String` results.
* NumPy float vectors hold only the exact values `0.0` and `1.0` everywhere
  in this code base, so vectors are embedded as `List Int`; `np.isclose`
  (`|a-b| <= 1e-8 + 1e-5*|b|`) specialised to integer-valued entries is the
  integer inequality `10^8*|a-b| <= 1 + 10^3*|b|`, which is encoded exactly.
* `while` loops that walk along a ray of the finite board are encoded with a
  fuel argument; fuel `board.length + 1` is proved sufficient because the
  walk visits pairwise distinct cells of the board.
-/

/-- Axial hex coordinate `(q, r)`. -/
abbrev QR := Int × Int

/-- `CLOCKWISE_UNIT_VECTOR_LIST` from `Engine.py`: the six clockwise
adjacency vectors, starting due east. -/
def CLOCKWISE_UNIT_VECTOR_LIST : List QR :=
  [(1, 0), (0, 1), (-1, 1), (-1, 0), (0, -1), (1, -1)]

/-- `CellStatus` from `Engine.py`: one spot on the board. -/
structure CellStatus where
  q : Int
  r : Int
  occupied_adjacent : Int
  owner : Option Nat
deriving DecidableEq, Repr

/-- `CellCapture` from `Engine.py`: a single-cell ownership change. -/
structure CellCapture where
  q : Int
  r : Int
  owner : Option Nat
deriving DecidableEq, Repr

/-- `PlayerMove` from `Engine.py` (the `action_tags` field carries no game
logic). -/
structure PlayerMove where
  turn_index : Nat
  q : Int
  r : Int
  owner : Nat
  action_tags : List String
deriving DecidableEq, Repr

/-- `BoardState` from `Engine.py`: the `(q,r) -> CellStatus` dictionary as an
association list. -/
abbrev BoardState := List (QR × CellStatus)

/-- Dictionary lookup `boardState[qr]` (as an `Option`). -/
def lookupCell (b : BoardState) (p : QR) : Option CellStatus :=
  (b.find? (fun e => e.1 = p)).map (fun e => e.2)

/-- `adjacent_spaces` from `Engine.py`. -/
def adjacent_spaces (qr : QR) : List QR :=
  CLOCKWISE_UNIT_VECTOR_LIST.map (fun v => (qr.1 + v.1, qr.2 + v.2))

/-- `adjacent_occupied_count` from `Engine.py`: neighbours that exist on the
board and have an owner. -/
def adjacent_occupied_count (qr : QR) (b : BoardState) : Nat :=
  (adjacent_spaces qr).countP (fun p =>
    match lookupCell b p with
    | some c => c.owner.isSome
    | none => false)

/-- `get_potential_moves` from `Engine.py`: empty cells with at least one
occupied neighbour. -/
def get_potential_moves (b : BoardState) : List QR :=
  (b.filter (fun e => e.2.owner = none && e.2.occupied_adjacent > 0)).map (fun e => e.1)

/-- `get_emptyCount` from `Engine.py`. -/
def get_emptyCount (b : BoardState) : Nat :=
  b.foldl (fun n e => if e.2.owner = none then n + 1 else n) 0

/-- `get_scores` from `Engine.py`: starts from `[0]*player_count` and bumps
the owner of every owned cell; a Python `IndexError` (owner out of range)
becomes an error. -/
def bumpScore (scores : List Int) (i : Nat) (d : Int) : Except String (List Int) :=
  if h : i < scores.length then .ok (scores.set i (scores.get ⟨i, h⟩ + d))
  else .error ("IndexError")

/-- `get_scores` from `Engine.py`. -/
def get_scores (b : BoardState) (player_count : Nat) : Except String (List Int) :=
  b.foldlM (fun scores e =>
      match e.2.owner with
      | some o => bumpScore scores o 1
      | none => pure scores)
    (List.replicate player_count (0 : Int))

/-- The body of the `while _qr in boardState` loop of `getCaptures_forMove`
(`Engine.py`).  `fuel` bounds the number of iterations; the caller passes
`board.length + 1`, which is never exhausted because the walk visits
pairwise distinct cells of the board (see `captureWalk_eq_flankCaptures`). -/
def captureWalk (board : BoardState) (mover : Option Nat) (v : QR) :
    QR → List CellCapture → Nat → List CellCapture
  | _, _, 0 => []
  | p, acc, fuel + 1 =>
    match lookupCell board p with
    | none => []
    | some c =>
      match c.owner with
      | none => []
      | some o =>
        if some o = mover then acc
        else captureWalk board mover v (p.1 + v.1, p.2 + v.2)
          (acc ++ [⟨p.1, p.2, mover⟩]) fuel

/-- `getCaptures_forMove` from `Engine.py`.  The `assert
boardState[qr]["owner"] is None` (and the `KeyError` on a coordinate not on
the board) become errors. -/
def getCaptures_forMove (u : CellCapture) (board : BoardState) :
    Except String (List CellCapture) :=
  match lookupCell board (u.q, u.r) with
  | none => .error ("KeyError")
  | some c =>
    if c.owner.isSome then .error ("AssertionError")
    else .ok (CLOCKWISE_UNIT_VECTOR_LIST.foldl
      (fun acc v =>
        acc ++ captureWalk board u.owner v (u.q + v.1, u.r + v.2) [] (board.length + 1))
      [])

/-- `getMoves_forPlayer` from `Engine.py`: an empty `potential_moves` means
"scan every empty cell"; only coordinates yielding at least one capture are
kept. -/
def getMoves_forPlayer (player : Nat) (board : BoardState)
    (potential_moves : List QR) : Except String (List (QR × List CellCapture)) :=
  let pm := if potential_moves = [] then
      (board.filter (fun e => e.2.owner = none)).map (fun e => e.1)
    else potential_moves
  pm.foldlM (fun acc qr => do
      let captures ← getCaptures_forMove ⟨qr.1, qr.2, some player⟩ board
      if captures.length > 0 then pure (acc ++ [(qr, captures)]) else pure acc)
    []

/-- The coordinate enumeration of `HexagonGridHelper.__init__` (`Engine.py`):
`q` from `1-size` to `size-1`, and for each `q` the `r` range
`max(1-q-size, 1-size) .. min(1-q+size, size-1-q, size-1)`. -/
def hexQRList (size : Nat) : List QR :=
  (List.range (2 * size - 1)).flatMap (fun qi =>
    let q : Int := 1 - (size : Int) + qi
    let rmin : Int := max (1 - q - size) (1 - (size : Int))
    let rmax : Int := min (min (1 - q + size) ((size : Int) - 1 - q)) ((size : Int) - 1)
    (List.range (rmax + 1 - rmin).toNat).map (fun (ri : Nat) => (q, rmin + (ri : Int))))

/-- `helper.length` for `HexagonGridHelper(size, player_count)`; the
enumeration does not depend on `player_count`. -/
def helperLength (size : Nat) : Nat := (hexQRList size).length

/-- `SIZE_DICT` from `Engine.py` (its initial, unmemoized contents). -/
def SIZE_DICT : List (Nat × Nat) := [(3, 19), (4, 37), (5, 61), (6, 91)]

/-- `get_spaceCount_forSize` from `Engine.py`, called with no helper: for a
size in the table return the table value, otherwise a helper is built from
`player_count`; `assert player_count is not None` becomes an error. -/
def get_spaceCount_forSize (size : Nat) (player_count : Option Nat) :
    Except String Nat :=
  match SIZE_DICT.lookup size with
  | some n => .ok n
  | none =>
    match player_count with
    | none => .error ("AssertionError")
    | some _ => .ok (helperLength size)

/-- C8: for sizes 3, 4, 5, 6 the grid helper enumerates exactly 19, 37, 61
and 91 coordinates, matching the `SIZE_DICT` lookup used by
`get_spaceCount_forSize` (the enumeration does not read `player_count`). -/
theorem C8_spaceCounts :
    helperLength 3 = 19 ∧ get_spaceCount_forSize 3 none = .ok 19 ∧
    helperLength 4 = 37 ∧ get_spaceCount_forSize 4 none = .ok 37 ∧
    helperLength 5 = 61 ∧ get_spaceCount_forSize 5 none = .ok 61 ∧
    helperLength 6 = 91 ∧ get_spaceCount_forSize 6 none = .ok 91 := by
  refine ⟨by decide, rfl, by decide, rfl, by decide, rfl, by decide, rfl⟩

/-- The fixed `status` dictionary of a `Hexathello` instance (`Engine.py`). -/
structure GameStatus where
  winner : Option Nat
  turn_index : Nat
  size : Nat
  game_complete : Bool
  empty_count : Int
  player_count : Nat
  current_player : Nat
  scores : List Int
deriving DecidableEq, Repr

/-- A `Hexathello` instance: status, board, and the cached potential-move
list. -/
structure GameState where
  status : GameStatus
  board : BoardState
  potential_moves : List QR
deriving DecidableEq, Repr

/-- `boardState[qr]["owner"] = w`: update one cell of the dictionary (the
keys are unchanged; with `Nodup` keys at most one entry matches). -/
def setCellOwner (b : BoardState) (qr : QR) (w : Option Nat) : BoardState :=
  b.map (fun e => if e.1 = qr then (e.1, { e.2 with owner := w }) else e)

/-- The `for _qr in adjacent_spaces(qr)` loops of `applyUpdate_literal`
(`Engine.py`): add `d` to `occupied_adjacent` of every neighbour present on
the board. -/
def bumpAdjacent (b : BoardState) (qr : QR) (d : Int) : BoardState :=
  (adjacent_spaces qr).foldl (fun acc p =>
    if (lookupCell acc p).isSome then
      acc.map (fun e =>
        if e.1 = p then (e.1, { e.2 with occupied_adjacent := e.2.occupied_adjacent + d }) else e)
    else acc) b

/-- `Hexathello.applyUpdate_literal` (`Engine.py`): the four cases by
(old owner present?, new owner present?); the Python `KeyError` on a
coordinate not on the board and the `IndexError` on a score index out of
range become errors.  `potential_moves` is recomputed in every case. -/
def applyUpdate_literal (st : GameState) (u : CellCapture) : Except String GameState := do
  match lookupCell st.board (u.q, u.r) with
  | none => .error ("KeyError")
  | some cell =>
    match cell.owner, u.owner with
    | none, some w => do
      let scores1 ← bumpScore st.status.scores w 1
      let board1 := bumpAdjacent (setCellOwner st.board (u.q, u.r) (some w)) (u.q, u.r) 1
      pure { status := { st.status with empty_count := st.status.empty_count - 1, scores := scores1 },
             board := board1,
             potential_moves := get_potential_moves board1 }
    | none, none =>
      pure { st with potential_moves := get_potential_moves st.board }
    | some old, some w => do
      let scores1 ← bumpScore st.status.scores old (-1)
      let scores2 ← bumpScore scores1 w 1
      let board1 := setCellOwner st.board (u.q, u.r) (some w)
      pure { status := { st.status with scores := scores2 },
             board := board1,
             potential_moves := get_potential_moves board1 }
    | some old, none => do
      let scores1 ← bumpScore st.status.scores old (-1)
      let board1 := bumpAdjacent (setCellOwner st.board (u.q, u.r) none) (u.q, u.r) (-1)
      pure { status := { st.status with empty_count := st.status.empty_count + 1, scores := scores1 },
             board := board1,
             potential_moves := get_potential_moves board1 }

/-- The `winning_score` loop of `Hexathello.applyUpdates` (`Engine.py`):
`ws = 0`, then `ws = scores[i]` whenever `scores[i] >= ws`. -/
def winningScore (scores : List Int) (player_count : Nat) : Int :=
  (List.range player_count).foldl
    (fun ws i => if scores.getD i 0 ≥ ws then scores.getD i 0 else ws) 0

/-- The `winner_list` loop of `Hexathello.applyUpdates` (`Engine.py`): every
player whose score is `>=` the winning score. -/
def winnerList (scores : List Int) (player_count : Nat) : List Nat :=
  (List.range player_count).filter (fun i => scores.getD i 0 ≥ winningScore scores player_count)

/-- The early-end verification of `Hexathello.applyUpdates` (`Engine.py`,
run when the game ends with empty cells left): for every player, recompute
the captures of every empty cell and fail with "Incorrect early end" if any
is non-empty. -/
def verifyEarlyEnd (board : BoardState) (player_count : Nat) : Except String Unit :=
  (List.range player_count).forM (fun p => do
    let md ← (board.filter (fun e => e.2.owner = none)).foldlM
      (fun acc e => do
        let caps ← getCaptures_forMove ⟨e.1.1, e.1.2, some p⟩ board
        pure (acc ++ [caps]))
      ([] : List (List CellCapture))
    if md.all (fun caps => caps.length ≤ 0) then pure ()
    else .error ("Incorrect early end"))

/-- The `if game_over:` block of `Hexathello.applyUpdates` (`Engine.py`):
set `game_complete`, compute the winner list, verify a stalemate end, and
set `winner` to the unique argmax or `None`. -/
def applyEndGame (st : GameState) : Except String GameState :=
  (if st.status.empty_count > 0 then verifyEarlyEnd st.board st.status.player_count
   else pure ()) >>= fun _ =>
  .ok { st with
    status := { st.status with
      game_complete := true,
      winner :=
        if (winnerList st.status.scores st.status.player_count).length = 1 then
          (winnerList st.status.scores st.status.player_count).head?
        else none } }

/-- The `while len(potential_plays) <= 0` player-skip loop of
`Hexathello.applyUpdates` (`Engine.py`).  Returns `(game_over, current
player)`.  Terminates because `skips` strictly increases up to
`player_count`. -/
def skipLoop (board : BoardState) (pm : List QR) (player_count : Nat)
    (cp : Nat) (skips : Nat) : Except String (Bool × Nat) := do
  let plays ← getMoves_forPlayer cp board pm
  if plays.length ≤ 0 then
    if h : skips + 1 ≥ player_count then pure (true, cp)
    else skipLoop board pm player_count ((cp + 1) % player_count) (skips + 1)
  else pure (false, cp)
termination_by player_count - skips

/-- Applying one capture inside `Hexathello.applyUpdates` (`Engine.py`):
`assert self.boardState[(q,r)]["owner"] is not None`, then the literal
update. -/
def applyCaptureStep (s : GameState) (c : CellCapture) : Except String GameState :=
  match lookupCell s.board (c.q, c.r) with
  | none => .error ("KeyError")
  | some cell =>
    if cell.owner.isSome then applyUpdate_literal s c
    else .error ("AssertionError")

/-- One iteration of the `while not self.queue.empty()` loop of
`Hexathello.applyUpdates` (`Engine.py`): the finished-game checks, the
stale-turn and wrong-player discards, capture resolution, the literal
updates, and the end-of-turn bookkeeping. -/
def processUpdate (st : GameState) (u : PlayerMove) : Except String GameState := do
  if st.status.winner.isSome then .error ("winner is already set")
  else if st.status.game_complete then .error ("Game is done but with no winner")
  else if st.status.empty_count ≤ 0 then .error ("empty_count 0 but no winners and game is not over")
  else if u.turn_index ≠ st.status.turn_index then pure st
  else if u.owner ≠ st.status.current_player then pure st
  else do
    let captures ← getCaptures_forMove ⟨u.q, u.r, some u.owner⟩ st.board
    if captures.length = 0 then .error ("AssertionError")
    else do
      let st1 ← applyUpdate_literal st ⟨u.q, u.r, some u.owner⟩
      let st2 ← captures.foldlM applyCaptureStep st1
      if st2.status.empty_count ≤ 0 then applyEndGame st2
      else do
        let status := st2.status
        let cp1 := (status.current_player + 1) % status.player_count
        let st3 : GameState :=
          { st2 with status := { status with turn_index := status.turn_index + 1, current_player := cp1 } }
        let res ← skipLoop st3.board st3.potential_moves st3.status.player_count cp1 0
        let st4 : GameState := { st3 with status := { st3.status with current_player := res.2 } }
        if res.1 then applyEndGame st4 else pure st4

/-- `Hexathello.applyUpdates` (`Engine.py`): drain the queued moves in
order. -/
def applyUpdates (st : GameState) : List PlayerMove → Except String GameState
  | [] => .ok st
  | u :: rest => do
    let st1 ← processUpdate st u
    applyUpdates st1 rest

/-- A sequence of `queueUpdate*`/`applyUpdates` rounds: each inner list is
the queue drained by one `applyUpdates` call. -/
def runQueues (st : GameState) (queues : List (List PlayerMove)) :
    Except String GameState :=
  queues.foldlM applyUpdates st

/-- `new_initial_boardState` (`Engine.py`, with the default
`include_middle = True`): all cells empty, then the inner ring of six unit
vectors seeded with players `0, 1, ...` modulo `player_count`, then every
cell's `occupied_adjacent` recomputed from scratch (the in-source loop reads
only owners, so it equals `adjacent_occupied_count` on the seeded board). -/
def new_initial_boardState (size player_count : Nat) : Except String BoardState :=
  if player_count = 2 ∨ player_count = 3 ∨ player_count = 6 then
    if 2 < size then
      let base : BoardState :=
        (hexQRList size).map (fun qr => (qr, ⟨qr.1, qr.2, 0, none⟩))
      let seeded :=
        CLOCKWISE_UNIT_VECTOR_LIST.enum.foldl
          (fun b kv => setCellOwner b kv.2 (some (kv.1 % player_count))) base
      .ok (seeded.map (fun e =>
        (e.1, { e.2 with occupied_adjacent := (adjacent_occupied_count e.1 seeded : Int) })))
    else .error ("AssertionError")
  else .error ("AssertionError")

/-- `new_hexathello` (`Engine.py`) composed with `Hexathello.__init__`: the
status is built from the fresh board (`empty_count` and `scores` derived, so
the `__init__` consistency asserts hold by construction; its game-over
assert is kept).  The `jable.JyFrame` round trip through `initial_status`
appends each cell and reads it back unchanged, so the board is passed
through directly. -/
def new_hexathello (size player_count player_start : Nat) :
    Except String GameState := do
  let board ← new_initial_boardState size player_count
  let scores ← get_scores board player_count
  if (get_emptyCount board : Int) = 0 then .error ("AssertionError")
  else
    pure
      { status :=
          { winner := none
            turn_index := 0
            size := size
            game_complete := false
            empty_count := (get_emptyCount board : Int)
            player_count := player_count
            current_player := player_start
            scores := scores }
        board := board
        potential_moves := get_potential_moves board }

/-- Cells owned by player `i` (counts dictionary entries; with `Nodup` keys
this is the number of cells owned by `i`). -/
def countOwned (b : BoardState) (i : Nat) : Nat :=
  (b.filter (fun e => e.2.owner = some i)).length

/-- Unowned cells. -/
def countEmpty (b : BoardState) : Nat :=
  (b.filter (fun e => e.2.owner = none)).length

/-- The score/empty bookkeeping invariant of a game state: the board keys
are a genuine dictionary (no duplicates), every player's tracked score is
the number of cells they own (in particular any index beyond the score list
owns nothing), and `empty_count` is the number of unowned cells. -/
def scoreInvariant (st : GameState) : Prop :=
  (st.board.map (fun e => e.1)).Nodup ∧
  (∀ i : Nat, st.status.scores.getD i 0 = (countOwned st.board i : Int)) ∧
  st.status.empty_count = (countEmpty st.board : Int)

/-- Generic owner-predicate count; `countOwned` and `countEmpty` are
instances. -/
def countPOwner (b : BoardState) (P : Option Nat → Bool) : Nat :=
  (b.filter (fun e => P e.2.owner)).length

theorem countOwned_eq_countPOwner (b : BoardState) (i : Nat) :
    countOwned b i = countPOwner b (fun o => o = some i) := rfl

theorem countEmpty_eq_countPOwner (b : BoardState) :
    countEmpty b = countPOwner b (fun o => o = none) := rfl

theorem countPOwner_map_preserve {b : BoardState} {f : QR × CellStatus → QR × CellStatus}
    (hf : ∀ e, (f e).2.owner = e.2.owner) (P : Option Nat → Bool) :
    countPOwner (b.map f) P = countPOwner b P := by
  induction b with
  | nil => rfl
  | cons e t ih =>
    simp only [List.map_cons, countPOwner, List.filter_cons, hf e] at ih ⊢
    by_cases hP : P e.2.owner <;> simp [hP, ih]

theorem map_fst_map_preserve {b : BoardState} {f : QR × CellStatus → QR × CellStatus}
    (hf : ∀ e, (f e).1 = e.1) :
    (b.map f).map (fun e => e.1) = b.map (fun e => e.1) := by
  induction b with
  | nil => rfl
  | cons e t ih => simp [hf e, ih]

theorem setCellOwner_of_not_mem {b : BoardState} {qr : QR} {w : Option Nat}
    (h : qr ∉ b.map (fun e => e.1)) : setCellOwner b qr w = b := by
  induction b with
  | nil => rfl
  | cons e t ih =>
    simp only [List.map_cons, List.mem_cons, not_or] at h
    have he : ¬ e.1 = qr := fun hq => h.1 hq.symm
    have ht := ih h.2
    simp only [setCellOwner, List.map_cons, he, if_false] at ht ⊢
    rw [show (t.map (fun e => if e.1 = qr then (e.1, { e.2 with owner := w }) else e)) = t from ht]

theorem map_fst_setCellOwner (b : BoardState) (qr : QR) (w : Option Nat) :
    (setCellOwner b qr w).map (fun e => e.1) = b.map (fun e => e.1) := by
  apply map_fst_map_preserve
  intro e
  by_cases h : e.1 = qr <;> simp [h]

theorem bumpAdjacent_step_fst (b : BoardState) (p : QR) (d : Int) :
    ((if (lookupCell b p).isSome then
        b.map (fun e =>
          if e.1 = p then (e.1, { e.2 with occupied_adjacent := e.2.occupied_adjacent + d }) else e)
      else b)).map (fun e => e.1) = b.map (fun e => e.1) := by
  by_cases hp : (lookupCell b p).isSome
  · simp only [hp, if_true]
    apply map_fst_map_preserve
    intro e
    by_cases h : e.1 = p <;> simp [h]
  · simp [hp]

theorem bumpAdjacent_step_count (b : BoardState) (p : QR) (d : Int) (P : Option Nat → Bool) :
    countPOwner ((if (lookupCell b p).isSome then
        b.map (fun e =>
          if e.1 = p then (e.1, { e.2 with occupied_adjacent := e.2.occupied_adjacent + d }) else e)
      else b)) P = countPOwner b P := by
  by_cases hp : (lookupCell b p).isSome
  · simp only [hp, if_true]
    apply countPOwner_map_preserve
    intro e
    by_cases h : e.1 = p <;> simp [h]
  · simp [hp]

theorem map_fst_bumpAdjacent (b : BoardState) (qr : QR) (d : Int) :
    (bumpAdjacent b qr d).map (fun e => e.1) = b.map (fun e => e.1) := by
  unfold bumpAdjacent
  generalize adjacent_spaces qr = ps
  induction ps generalizing b with
  | nil => rfl
  | cons p pt ih =>
    rw [List.foldl_cons, ih, bumpAdjacent_step_fst]

theorem countPOwner_bumpAdjacent (b : BoardState) (qr : QR) (d : Int) (P : Option Nat → Bool) :
    countPOwner (bumpAdjacent b qr d) P = countPOwner b P := by
  unfold bumpAdjacent
  generalize adjacent_spaces qr = ps
  induction ps generalizing b with
  | nil => rfl
  | cons p pt ih =>
    rw [List.foldl_cons, ih, bumpAdjacent_step_count]

theorem countPOwner_setCellOwner {b : BoardState} {qr : QR} {c : CellStatus}
    (hnd : (b.map (fun e => e.1)).Nodup) (hl : lookupCell b qr = some c)
    (w : Option Nat) (P : Option Nat → Bool) :
    countPOwner (setCellOwner b qr w) P + (if P c.owner then 1 else 0)
      = countPOwner b P + (if P w then 1 else 0) := by
  induction b with
  | nil => simp [lookupCell] at hl
  | cons e t ih =>
    simp only [List.map_cons, List.nodup_cons] at hnd
    by_cases he : e.1 = qr
    · have hc : c = e.2 := by
        simp [lookupCell, List.find?_cons, he] at hl
        exact hl.symm
      have ht : qr ∉ t.map (fun e => e.1) := he ▸ hnd.1
      have hts : setCellOwner t qr w = t := setCellOwner_of_not_mem ht
      simp only [setCellOwner, List.map_cons, he, if_true, hc]
      rw [show (t.map (fun e => if e.1 = qr then (e.1, { e.2 with owner := w }) else e)) = t from hts]
      simp only [countPOwner, List.filter_cons]
      cases hPw : P w <;> cases hPe : P e.2.owner <;> simp [hPw, hPe]
    · have hl2 : lookupCell t qr = some c := by
        simpa [lookupCell, List.find?_cons, he] using hl
      have := ih hnd.2 hl2
      simp only [setCellOwner, List.map_cons, he, if_false] at *
      simp only [countPOwner, List.filter_cons] at *
      by_cases hPe : P e.2.owner <;> simp [hPe] at * <;> omega

theorem bumpScore_ok_iff {scores : List Int} {i : Nat} {d : Int} {s : List Int} :
    bumpScore scores i d = .ok s ↔
      ∃ h : i < scores.length, s = scores.set i (scores.get ⟨i, h⟩ + d) := by
  unfold bumpScore
  by_cases h : i < scores.length <;> simp [h, eq_comm]

theorem bumpScore_getD {scores : List Int} {i : Nat} {d : Int} {s : List Int}
    (h : bumpScore scores i d = .ok s) :
    ∀ j, s.getD j 0 = scores.getD j 0 + (if j = i then d else 0) := by
  obtain ⟨hi, rfl⟩ := bumpScore_ok_iff.mp h
  intro j
  by_cases hj : j = i
  · subst hj
    simp [List.getD, List.getElem?_set_self, hi, List.get_eq_getElem,
      List.getD_eq_getElem?_getD, List.getElem?_eq_getElem hi]
  · simp [List.getD_eq_getElem?_getD, List.getElem?_set_ne (fun hx => hj hx.symm), hj]

theorem get_emptyCount_eq_countEmpty (b : BoardState) :
    get_emptyCount b = countEmpty b := by
  unfold get_emptyCount
  suffices h : ∀ n, b.foldl (fun n e => if e.2.owner = none then n + 1 else n) n
      = n + countEmpty b by simpa using h 0
  induction b with
  | nil => intro n; simp [countEmpty]
  | cons e t ih =>
    intro n
    simp only [List.foldl_cons, countEmpty, List.filter_cons]
    by_cases he : e.2.owner = none
    · simp [he, ih, countEmpty]
      omega
    · simp [he, ih, countEmpty]

theorem exceptBind_ok {α β : Type} {x : Except String α} {f : α → Except String β} {b : β}
    (h : x >>= f = .ok b) : ∃ a, x = .ok a ∧ f a = .ok b := by
  cases x with
  | error e => simp [Bind.bind, Except.bind] at h
  | ok a => exact ⟨a, rfl, by simpa [Bind.bind, Except.bind] using h⟩

theorem get_scores_aux {b : BoardState} {s : List Int} :
    ∀ {acc : List Int}, b.foldlM (fun scores e =>
        match e.2.owner with
        | some o => bumpScore scores o 1
        | none => pure scores) acc = .ok s →
    ∀ i, s.getD i 0 = acc.getD i 0 + (countOwned b i : Int) := by
  induction b with
  | nil =>
    intro acc h i
    simp only [List.foldlM_nil] at h
    cases h
    simp [countOwned]
  | cons e t ih =>
    intro acc h i
    rw [List.foldlM_cons] at h
    cases he : e.2.owner with
    | none =>
      rw [he] at h
      have hrest : t.foldlM (fun scores e =>
          match e.2.owner with
          | some o => bumpScore scores o 1
          | none => pure scores) acc = .ok s := by
        simpa [Bind.bind, Except.bind, pure, Except.pure] using h
      have h2 := ih hrest i
      have hcount : countOwned (e :: t) i = countOwned t i := by
        simp [countOwned, List.filter_cons, he]
      rw [hcount]
      exact h2
    | some o =>
      rw [he] at h
      obtain ⟨acc2, hb0, hrest⟩ := exceptBind_ok h
      have hb : bumpScore acc o 1 = .ok acc2 := hb0
      have h2 := ih hrest i
      have h3 := bumpScore_getD hb i
      have hcount : countOwned (e :: t) i = countOwned t i + (if i = o then 1 else 0) := by
        simp only [countOwned, List.filter_cons, he]
        by_cases hio : o = i
        · simp [hio]
        · simp [hio, Ne.symm hio]
      rw [h2, h3, hcount]
      by_cases hio : i = o
      · simp [hio]
        ring
      · simp [hio]

theorem getD_replicate_zero (n i : Nat) : (List.replicate n (0 : Int)).getD i 0 = 0 := by
  rcases lt_or_ge i n with h | h
  · simp [List.getD_eq_getElem?_getD, List.getElem?_replicate, h]
  · simp [List.getD_eq_getElem?_getD, List.getElem?_eq_none_iff.mpr, h]

theorem get_scores_spec {b : BoardState} {player_count : Nat} {s : List Int}
    (h : get_scores b player_count = .ok s) :
    ∀ i, s.getD i 0 = (countOwned b i : Int) := by
  intro i
  have := get_scores_aux h i
  simpa [getD_replicate_zero] using this

theorem countOwned_setCellOwner {b : BoardState} {qr : QR} {c : CellStatus}
    (hnd : (b.map (fun e => e.1)).Nodup) (hl : lookupCell b qr = some c)
    (w : Option Nat) (i : Nat) :
    countOwned (setCellOwner b qr w) i + (if c.owner = some i then 1 else 0)
      = countOwned b i + (if w = some i then 1 else 0) := by
  have := countPOwner_setCellOwner hnd hl w (fun o => o = some i)
  simpa [countOwned_eq_countPOwner] using this

theorem countEmpty_setCellOwner {b : BoardState} {qr : QR} {c : CellStatus}
    (hnd : (b.map (fun e => e.1)).Nodup) (hl : lookupCell b qr = some c)
    (w : Option Nat) :
    countEmpty (setCellOwner b qr w) + (if c.owner = none then 1 else 0)
      = countEmpty b + (if w = none then 1 else 0) := by
  have := countPOwner_setCellOwner hnd hl w (fun o => o = none)
  simpa [countEmpty_eq_countPOwner] using this

theorem countOwned_bumpAdjacent (b : BoardState) (qr : QR) (d : Int) (i : Nat) :
    countOwned (bumpAdjacent b qr d) i = countOwned b i := by
  have := countPOwner_bumpAdjacent b qr d (fun o => o = some i)
  simpa [countOwned_eq_countPOwner] using this

theorem countEmpty_bumpAdjacent (b : BoardState) (qr : QR) (d : Int) :
    countEmpty (bumpAdjacent b qr d) = countEmpty b := by
  have := countPOwner_bumpAdjacent b qr d (fun o => o = none)
  simpa [countEmpty_eq_countPOwner] using this

theorem applyUpdate_literal_inv {st st' : GameState} {u : CellCapture}
    (h : applyUpdate_literal st u = .ok st')
    (hinv : scoreInvariant st) :
    scoreInvariant st' ∧ st'.board.length = st.board.length ∧
      st'.status.player_count = st.status.player_count ∧
      st'.status.game_complete = st.status.game_complete ∧
      st'.status.winner = st.status.winner ∧
      st'.status.turn_index = st.status.turn_index ∧
      st'.status.current_player = st.status.current_player := by
  obtain ⟨hnd, hscores, hempty⟩ := hinv
  have hlen : ∀ b2 : BoardState, b2.map (fun e => e.1) = st.board.map (fun e => e.1) →
      b2.length = st.board.length := by
    intro b2 hb2
    have := congrArg List.length hb2
    simpa using this
  unfold applyUpdate_literal at h
  split at h
  · cases h
  · rename_i cell hl
    split at h
    -- case: empty cell taken by a player
    · rename_i w hco huo
      obtain ⟨scores1, hb1, h2⟩ := exceptBind_ok h
      have hb : bumpScore st.status.scores w 1 = .ok scores1 := hb1
      simp only [pure, Except.pure, Except.ok.injEq] at h2
      subst h2
      have hkeys : (bumpAdjacent (setCellOwner st.board (u.q, u.r) (some w)) (u.q, u.r) 1).map (fun e => e.1)
          = st.board.map (fun e => e.1) := by
        rw [map_fst_bumpAdjacent, map_fst_setCellOwner]
      refine ⟨⟨by rw [hkeys]; exact hnd, ?_, ?_⟩, hlen _ hkeys, rfl, rfl, rfl, rfl, rfl⟩
      · intro i
        have hcnt := countOwned_setCellOwner hnd hl (some w) i
        rw [hco] at hcnt
        have hgd := bumpScore_getD hb i
        simp only [countOwned_bumpAdjacent]
        rw [hgd, hscores i]
        by_cases hiw : i = w
        · subst hiw
          simp at hcnt ⊢
          omega
        · have hne : ¬ ((some w : Option Nat) = some i) := by simp [Ne.symm hiw]
          simp [hne, hiw] at hcnt ⊢
          omega
      · have hcnt := countEmpty_setCellOwner hnd hl (some w)
        rw [hco] at hcnt
        simp only [countEmpty_bumpAdjacent]
        simp at hcnt
        rw [hempty]
        omega
    -- case: empty update on an empty cell, nothing changes
    · rename_i hco huo
      simp only [pure, Except.pure, Except.ok.injEq] at h
      subst h
      exact ⟨⟨hnd, hscores, hempty⟩, rfl, rfl, rfl, rfl, rfl, rfl⟩
    -- case: a capture, ownership moves between players
    · rename_i old w hco huo
      obtain ⟨scores1, hb1, h2⟩ := exceptBind_ok h
      have hbA : bumpScore st.status.scores old (-1) = .ok scores1 := hb1
      obtain ⟨scores2, hb2, h3⟩ := exceptBind_ok h2
      have hbB : bumpScore scores1 w 1 = .ok scores2 := hb2
      simp only [pure, Except.pure, Except.ok.injEq] at h3
      subst h3
      have hkeys : (setCellOwner st.board (u.q, u.r) (some w)).map (fun e => e.1)
          = st.board.map (fun e => e.1) := map_fst_setCellOwner _ _ _
      refine ⟨⟨by rw [hkeys]; exact hnd, ?_, ?_⟩, hlen _ hkeys, rfl, rfl, rfl, rfl, rfl⟩
      · intro i
        have hcnt := countOwned_setCellOwner hnd hl (some w) i
        rw [hco] at hcnt
        have hgA := bumpScore_getD hbA i
        have hgB := bumpScore_getD hbB i
        rw [hgB, hgA, hscores i]
        by_cases hio : i = old <;> by_cases hiw : i = w
        · subst hio; subst hiw
          simp at hcnt ⊢
          omega
        · subst hio
          have hne : ¬ ((some w : Option Nat) = some i) := by simp [Ne.symm hiw]
          simp [hne, hiw] at hcnt ⊢
          omega
        · subst hiw
          have hne : ¬ ((some old : Option Nat) = some i) := by simp [Ne.symm hio]
          simp [hne, hio] at hcnt ⊢
          omega
        · have hne1 : ¬ ((some old : Option Nat) = some i) := by simp [Ne.symm hio]
          have hne2 : ¬ ((some w : Option Nat) = some i) := by simp [Ne.symm hiw]
          simp [hne1, hne2, hio, hiw] at hcnt ⊢
          omega
      · have hcnt := countEmpty_setCellOwner hnd hl (some w)
        rw [hco] at hcnt
        simp at hcnt
        rw [hempty, hcnt]
    -- case: vacating an owned cell
    · rename_i old hco huo
      obtain ⟨scores1, hb1, h2⟩ := exceptBind_ok h
      have hb : bumpScore st.status.scores old (-1) = .ok scores1 := hb1
      simp only [pure, Except.pure, Except.ok.injEq] at h2
      subst h2
      have hkeys : (bumpAdjacent (setCellOwner st.board (u.q, u.r) none) (u.q, u.r) (-1)).map (fun e => e.1)
          = st.board.map (fun e => e.1) := by
        rw [map_fst_bumpAdjacent, map_fst_setCellOwner]
      refine ⟨⟨by rw [hkeys]; exact hnd, ?_, ?_⟩, hlen _ hkeys, rfl, rfl, rfl, rfl, rfl⟩
      · intro i
        have hcnt := countOwned_setCellOwner hnd hl none i
        rw [hco] at hcnt
        have hgd := bumpScore_getD hb i
        simp only [countOwned_bumpAdjacent]
        rw [hgd, hscores i]
        by_cases hio : i = old
        · subst hio
          simp at hcnt ⊢
          omega
        · have hne : ¬ ((some old : Option Nat) = some i) := by simp [Ne.symm hio]
          simp [hne, hio] at hcnt ⊢
          omega
      · have hcnt := countEmpty_setCellOwner hnd hl none
        rw [hco] at hcnt
        simp only [countEmpty_bumpAdjacent]
        simp at hcnt
        rw [hempty]
        omega

theorem applyEndGame_ok {st st' : GameState} (h : applyEndGame st = .ok st') :
    st'.board = st.board ∧ st'.potential_moves = st.potential_moves ∧
    st'.status.scores = st.status.scores ∧
    st'.status.empty_count = st.status.empty_count ∧
    st'.status.player_count = st.status.player_count ∧
    st'.status.game_complete = true ∧
    st'.status.winner = (if (winnerList st.status.scores st.status.player_count).length = 1
      then (winnerList st.status.scores st.status.player_count).head? else none) := by
  unfold applyEndGame at h
  obtain ⟨u2, hu, h2⟩ := exceptBind_ok h
  simp only [Except.ok.injEq] at h2
  subst h2
  exact ⟨rfl, rfl, rfl, rfl, rfl, rfl, rfl⟩

theorem applyEndGame_inv {st st' : GameState} (h : applyEndGame st = .ok st')
    (hinv : scoreInvariant st) : scoreInvariant st' := by
  obtain ⟨hb, _, hs, he, _, _, _⟩ := applyEndGame_ok h
  obtain ⟨hnd, hscores, hempty⟩ := hinv
  refine ⟨by rw [hb]; exact hnd, ?_, ?_⟩
  · intro i; rw [hs, hb]; exact hscores i
  · rw [he, hb]; exact hempty

theorem capturesFold_inv {caps : List CellCapture} :
    ∀ {st st' : GameState},
    caps.foldlM applyCaptureStep st = .ok st' →
    scoreInvariant st →
    scoreInvariant st' ∧ st'.status.player_count = st.status.player_count ∧
      st'.status.game_complete = st.status.game_complete ∧
      st'.status.winner = st.status.winner := by
  induction caps with
  | nil =>
    intro st st' h hinv
    simp only [List.foldlM_nil] at h
    cases h
    exact ⟨hinv, rfl, rfl, rfl⟩
  | cons c t ih =>
    intro st st' h hinv
    rw [List.foldlM_cons] at h
    obtain ⟨s1, hs1, hrest⟩ := exceptBind_ok h
    have hupd : applyUpdate_literal st c = .ok s1 := by
      unfold applyCaptureStep at hs1
      split at hs1
      · cases hs1
      · rename_i cell hcell
        split at hs1
        · exact hs1
        · cases hs1
    obtain ⟨hinv1, _, hpc1, hgc1, hw1, _, _⟩ := applyUpdate_literal_inv hupd hinv
    obtain ⟨hinv2, hpc2, hgc2, hw2⟩ := ih hrest hinv1
    exact ⟨hinv2, hpc2.trans hpc1, hgc2.trans hgc1, hw2.trans hw1⟩

theorem processUpdate_inv {st st' : GameState} {u : PlayerMove}
    (h : processUpdate st u = .ok st') (hinv : scoreInvariant st) :
    scoreInvariant st' := by
  unfold processUpdate at h
  split at h
  · cases h
  · split at h
    · cases h
    · split at h
      · cases h
      · split at h
        · cases h; exact hinv
        · split at h
          · cases h; exact hinv
          · obtain ⟨caps, hcaps, h2⟩ := exceptBind_ok h
            split at h2
            · cases h2
            · obtain ⟨st1, hst1, h3⟩ := exceptBind_ok h2
              obtain ⟨st2, hst2, h4⟩ := exceptBind_ok h3
              obtain ⟨hinv1, _, _, _, _, _, _⟩ := applyUpdate_literal_inv hst1 hinv
              obtain ⟨hinv2, _, _, _⟩ := capturesFold_inv hst2 hinv1
              split at h4
              · exact applyEndGame_inv h4 hinv2
              · obtain ⟨res, hres, h5⟩ := exceptBind_ok h4
                have hinv3 : scoreInvariant
                    { st2 with status := { st2.status with
                        turn_index := st2.status.turn_index + 1,
                        current_player := (st2.status.current_player + 1) % st2.status.player_count } } :=
                  ⟨hinv2.1, hinv2.2.1, hinv2.2.2⟩
                split at h5
                · refine applyEndGame_inv h5 ?_
                  exact ⟨hinv2.1, hinv2.2.1, hinv2.2.2⟩
                · simp only [pure, Except.pure, Except.ok.injEq] at h5
                  subst h5
                  exact ⟨hinv2.1, hinv2.2.1, hinv2.2.2⟩

theorem applyUpdates_inv {q : List PlayerMove} :
    ∀ {st st' : GameState}, applyUpdates st q = .ok st' →
      scoreInvariant st → scoreInvariant st' := by
  induction q with
  | nil =>
    intro st st' h hinv
    cases h
    exact hinv
  | cons u rest ih =>
    intro st st' h hinv
    unfold applyUpdates at h
    obtain ⟨st1, hst1, hrest⟩ := exceptBind_ok h
    exact ih hrest (processUpdate_inv hst1 hinv)

theorem runQueues_inv {queues : List (List PlayerMove)} :
    ∀ {st st' : GameState}, runQueues st queues = .ok st' →
      scoreInvariant st → scoreInvariant st' := by
  induction queues with
  | nil =>
    intro st st' h hinv
    simp only [runQueues, List.foldlM_nil] at h
    cases h
    exact hinv
  | cons q rest ih =>
    intro st st' h hinv
    simp only [runQueues, List.foldlM_cons] at h
    obtain ⟨st1, hst1, hrest⟩ := exceptBind_ok h
    exact ih hrest (applyUpdates_inv hst1 hinv)

theorem hexQRList_nodup (size : Nat) : (hexQRList size).Nodup := by
  unfold hexQRList
  rw [List.nodup_flatMap]
  constructor
  · intro qi _
    apply List.Nodup.map
    · intro a b hab
      simp only [Prod.mk.injEq] at hab
      omega
    · exact List.nodup_range _
  · have hpl := List.pairwise_lt_range (2 * size - 1)
    refine hpl.imp ?_
    intro a b hab
    intro x hxa hxb
    simp only [List.mem_map] at hxa hxb
    obtain ⟨ra, _, hra⟩ := hxa
    obtain ⟨rb, _, hrb⟩ := hxb
    have h1 : x.1 = 1 - (size : Int) + a := by rw [← hra]
    have h2 : x.1 = 1 - (size : Int) + b := by rw [← hrb]
    omega


theorem new_initial_boardState_keys {size player_count : Nat} {b : BoardState}
    (h : new_initial_boardState size player_count = .ok b) :
    b.map (fun e => e.1) = hexQRList size := by
  unfold new_initial_boardState at h
  split at h
  · split at h
    · simp only [Except.ok.injEq] at h
      subst h
      have hfold : ∀ (l : List (Nat × QR)) (base : BoardState),
          (l.foldl (fun b kv => setCellOwner b kv.2 (some (kv.1 % player_count))) base).map (fun e => e.1)
            = base.map (fun e => e.1) := by
        intro l
        induction l with
        | nil => intro base; rfl
        | cons kv t ih =>
          intro base
          rw [List.foldl_cons, ih, map_fst_setCellOwner]
      refine Eq.trans (@map_fst_map_preserve _ _ ?_) ?_
      · intro e
        rfl
      · rw [hfold, List.map_map]
        show (hexQRList size).map (fun qr => qr) = hexQRList size
        simp
    · cases h
  · cases h

theorem new_hexathello_inv {size player_count player_start : Nat} {st : GameState}
    (h : new_hexathello size player_count player_start = .ok st) :
    scoreInvariant st := by
  unfold new_hexathello at h
  obtain ⟨board, hboard, h2⟩ := exceptBind_ok h
  obtain ⟨scores, hscores, h3⟩ := exceptBind_ok h2
  split at h3
  · cases h3
  · simp only [pure, Except.pure, Except.ok.injEq] at h3
    subst h3
    refine ⟨?_, ?_, ?_⟩
    · rw [new_initial_boardState_keys hboard]
      exact hexQRList_nodup size
    · intro i
      exact get_scores_spec hscores i
    · simp only [get_emptyCount_eq_countEmpty]

theorem countOwned_cons (e : QR × CellStatus) (t : BoardState) (i : Nat) :
    countOwned (e :: t) i = countOwned t i + (if e.2.owner = some i then 1 else 0) := by
  simp only [countOwned, List.filter_cons]
  by_cases he : e.2.owner = some i <;> simp [he]

theorem list_sum_eq_range_getD (l : List Int) :
    l.sum = ∑ i in Finset.range l.length, l.getD i 0 := by
  induction l with
  | nil => simp
  | cons a t ih =>
    rw [List.sum_cons, List.length_cons, Finset.sum_range_succ']
    simp only [List.getD_cons_succ, List.getD_cons_zero]
    rw [← ih]
    ring

theorem board_partition (b : BoardState) :
    b.length = countEmpty b + (b.filter (fun e => e.2.owner.isSome)).length := by
  induction b with
  | nil => rfl
  | cons e t ih =>
    simp only [List.length_cons, countEmpty, List.filter_cons]
    cases he : e.2.owner <;> simp [he, countEmpty] at ih ⊢ <;> omega

theorem countSome_eq_sum (b : BoardState) (n : Nat)
    (hn : ∀ i, n ≤ i → countOwned b i = 0) :
    (b.filter (fun e => e.2.owner.isSome)).length = ∑ i in Finset.range n, countOwned b i := by
  induction b with
  | nil => simp [countOwned]
  | cons e t ih =>
    have hnt : ∀ i, n ≤ i → countOwned t i = 0 := by
      intro i hi
      have := hn i hi
      rw [countOwned_cons] at this
      omega
    cases he : e.2.owner with
    | none =>
      have hcons : ∀ i, countOwned (e :: t) i = countOwned t i := by
        intro i
        rw [countOwned_cons, he]
        simp
      simp only [List.filter_cons, he, Option.isSome_none, Bool.false_eq_true, if_false]
      rw [ih hnt]
      exact Finset.sum_congr rfl (fun i _ => (hcons i).symm)
    | some o =>
      have ho : o < n := by
        by_contra hno
        have := hn o (le_of_not_lt hno)
        rw [countOwned_cons, he] at this
        simp at this
      have hcons : ∀ i, countOwned (e :: t) i = countOwned t i + (if i = o then 1 else 0) := by
        intro i
        rw [countOwned_cons, he]
        by_cases hio : i = o
        · simp [hio]
        · simp [hio, Ne.symm hio]
      simp only [List.filter_cons, he, Option.isSome_some, if_true, List.length_cons]
      rw [ih hnt]
      have hsplit : ∑ i in Finset.range n, countOwned (e :: t) i
          = (∑ i in Finset.range n, countOwned t i) + ∑ i in Finset.range n, (if i = o then 1 else 0) := by
        rw [← Finset.sum_add_distrib]
        exact Finset.sum_congr rfl (fun i _ => hcons i)
      rw [hsplit, Finset.sum_ite_eq' (Finset.range n) o (fun _ => 1)]
      simp [Finset.mem_range.mpr ho]

theorem scoreInvariant_sum {st : GameState} (hinv : scoreInvariant st) :
    st.status.scores.sum + st.status.empty_count = (st.board.length : Int) := by
  obtain ⟨-, hscores, hempty⟩ := hinv
  have hn : ∀ i, st.status.scores.length ≤ i → countOwned st.board i = 0 := by
    intro i hi
    have h1 := hscores i
    rw [List.getD_eq_default] at h1
    · exact_mod_cast h1.symm
    · exact hi
  have hsum : st.status.scores.sum
      = ((st.board.filter (fun e => e.2.owner.isSome)).length : Int) := by
    rw [list_sum_eq_range_getD]
    rw [Finset.sum_congr rfl (fun i _ => hscores i)]
    rw [countSome_eq_sum st.board st.status.scores.length hn]
    push_cast
    rfl
  rw [hsum, hempty]
  have := board_partition st.board
  omega

/-- C2: for every game produced by `new_hexathello` and every sequence of
`applyUpdates` calls (each draining one queue of moves), the resulting
status satisfies `sum(scores) + empty_count = number of board cells`,
`scores[i] = number of cells owned by player i` for every `i`, and
`empty_count = number of unowned cells.`  Quantifying over every queue list
covers the state after each intermediate `applyUpdates` call, since each
prefix of calls is itself such a list. -/
theorem C2_score_empty_invariants (size player_count player_start : Nat)
    (queues : List (List PlayerMove)) (st0 stN : GameState)
    (h0 : new_hexathello size player_count player_start = .ok st0)
    (hrun : runQueues st0 queues = .ok stN) :
    stN.status.scores.sum + stN.status.empty_count = (stN.board.length : Int) ∧
    (∀ i : Nat, stN.status.scores.getD i 0 = (countOwned stN.board i : Int)) ∧
    stN.status.empty_count = (countEmpty stN.board : Int) := by
  have hinv := runQueues_inv hrun (new_hexathello_inv h0)
  exact ⟨scoreInvariant_sum hinv, hinv.2.1, hinv.2.2⟩

/-- A concrete freshly initialised size-3, 2-player game. -/
def demoInit : GameState :=
  match new_hexathello 3 2 0 with
  | .ok st => st
  | .error _ =>
    { status :=
        { winner := none
          turn_index := 0
          size := 0
          game_complete := false
          empty_count := 0
          player_count := 0
          current_player := 0
          scores := [] }
      board := []
      potential_moves := [] }

/-- Witness for C2 at the concrete size-3, 2-player game with no moves. -/
theorem C2_score_empty_invariants_witness :
    new_hexathello 3 2 0 = .ok demoInit ∧
    demoInit.status.scores.sum + demoInit.status.empty_count = (demoInit.board.length : Int) :=
  ⟨rfl, (C2_score_empty_invariants 3 2 0 [] demoInit demoInit rfl rfl).1⟩

theorem winningScore_succ (scores : List Int) (n : Nat) :
    winningScore scores (n + 1) = max (winningScore scores n) (scores.getD n 0) := by
  unfold winningScore
  rw [List.range_succ, List.foldl_append, List.foldl_cons, List.foldl_nil]
  rcases le_or_lt (List.foldl _ 0 (List.range n)) (scores.getD n 0) with h | h
  · rw [if_pos h, max_eq_right h]
  · rw [if_neg (not_le.mpr h), max_eq_left h.le]

theorem winningScore_ge (scores : List Int) (pc : Nat) :
    ∀ i < pc, scores.getD i 0 ≤ winningScore scores pc := by
  induction pc with
  | zero => intro i hi; omega
  | succ n ih =>
    intro i hi
    rw [winningScore_succ]
    rcases Nat.lt_or_ge i n with h | h
    · exact le_trans (ih i h) (le_max_left _ _)
    · have : i = n := by omega
      subst this
      exact le_max_right _ _

theorem winningScore_attained (scores : List Int) (pc : Nat)
    (hpos : ∀ i, 0 ≤ scores.getD i 0) (hpc : 0 < pc) :
    ∃ i, i < pc ∧ scores.getD i 0 = winningScore scores pc := by
  induction pc with
  | zero => omega
  | succ n ih =>
    rcases Nat.eq_zero_or_pos n with hn | hn
    · subst hn
      refine ⟨0, Nat.zero_lt_one, ?_⟩
      rw [winningScore_succ]
      have h0 : winningScore scores 0 = 0 := rfl
      rw [h0, max_eq_right (hpos 0)]
    · rcases le_or_lt (winningScore scores n) (scores.getD n 0) with h | h
      · exact ⟨n, by omega, by rw [winningScore_succ, max_eq_right h]⟩
      · obtain ⟨i, hi, hieq⟩ := ih hn
        exact ⟨i, by omega, by rw [winningScore_succ, max_eq_left h.le]; exact hieq⟩

theorem winnerList_mem (scores : List Int) (pc : Nat) (j : Nat) :
    j ∈ winnerList scores pc ↔
      j < pc ∧ winningScore scores pc ≤ scores.getD j 0 := by
  simp [winnerList, List.mem_filter, List.mem_range, ge_iff_le]

theorem range_filter_eq_single {p : Nat → Bool} {n w : Nat} (hw : w < n) (hpw : p w = true)
    (ho : ∀ j, j < n → j ≠ w → p j = false) : (List.range n).filter p = [w] := by
  induction n with
  | zero => omega
  | succ m ih =>
    rw [List.range_succ, List.filter_append]
    rcases Nat.lt_or_ge w m with hwm | hwm
    · have hm : p m = false := ho m (Nat.lt_succ_self m) (by omega)
      have h1 : List.filter p [m] = [] := by simp [hm]
      rw [h1, ih hwm (fun j hj hjw => ho j (by omega) hjw)]
      simp
    · have hwme : w = m := by omega
      subst hwme
      have h1 : List.filter p [w] = [w] := by simp [hpw]
      have h2 : (List.range w).filter p = [] := by
        rw [List.filter_eq_nil_iff]
        intro a ha
        rw [List.mem_range] at ha
        simp [ho a (by omega) (by omega)]
      rw [h1, h2]
      simp

theorem winner_unique_iff (scores : List Int) (pc : Nat)
    (hpos : ∀ i, 0 ≤ scores.getD i 0) (w : Nat) :
    ((if (winnerList scores pc).length = 1 then (winnerList scores pc).head? else none) = some w)
      ↔ (w < pc ∧ ∀ j, j < pc → j ≠ w → scores.getD j 0 < scores.getD w 0) := by
  constructor
  · intro h
    split at h
    · rename_i hl
      obtain ⟨a, ha⟩ := List.length_eq_one.mp hl
      rw [ha] at h
      simp only [List.head?_cons, Option.some.injEq] at h
      have hsym := h.symm
      subst hsym
      have hwmem : w ∈ winnerList scores pc := by rw [ha]; exact List.mem_singleton_self w
      obtain ⟨hwlt, hwge⟩ := (winnerList_mem scores pc w).mp hwmem
      refine ⟨hwlt, ?_⟩
      intro j hj hjw
      have hnot : j ∉ winnerList scores pc := by
        rw [ha]
        simp [hjw]
      rw [winnerList_mem] at hnot
      push_neg at hnot
      have hlt := hnot hj
      calc scores.getD j 0 < winningScore scores pc := hlt
        _ ≤ scores.getD w 0 := hwge
    · cases h
  · rintro ⟨hw, hstrict⟩
    have hpc : 0 < pc := by omega
    have hwmax : scores.getD w 0 = winningScore scores pc := by
      obtain ⟨i, hi, hieq⟩ := winningScore_attained scores pc hpos hpc
      rcases eq_or_ne i w with rfl | hne
      · exact hieq
      · have h1 := hstrict i hi hne
        have h2 := winningScore_ge scores pc w hw
        omega
    have hwl : winnerList scores pc = [w] := by
      unfold winnerList
      apply range_filter_eq_single hw
      · simp only [ge_iff_le, decide_eq_true_eq]
        rw [hwmax]
      · intro j hj hjw
        simp only [ge_iff_le, decide_eq_false_iff_not, not_le]
        have := hstrict j hj hjw
        omega
    rw [hwl]
    simp

theorem applyUpdate_literal_gc {st st' : GameState} {u : CellCapture}
    (h : applyUpdate_literal st u = .ok st') :
    st'.status.game_complete = st.status.game_complete := by
  unfold applyUpdate_literal at h
  split at h
  · cases h
  · split at h
    · obtain ⟨s1, _, h2⟩ := exceptBind_ok h
      simp only [pure, Except.pure, Except.ok.injEq] at h2
      subst h2
      rfl
    · simp only [pure, Except.pure, Except.ok.injEq] at h
      subst h
      rfl
    · obtain ⟨s1, _, h2⟩ := exceptBind_ok h
      obtain ⟨s2, _, h3⟩ := exceptBind_ok h2
      simp only [pure, Except.pure, Except.ok.injEq] at h3
      subst h3
      rfl
    · obtain ⟨s1, _, h2⟩ := exceptBind_ok h
      simp only [pure, Except.pure, Except.ok.injEq] at h2
      subst h2
      rfl

theorem capturesFold_gc {caps : List CellCapture} :
    ∀ {st st' : GameState}, caps.foldlM applyCaptureStep st = .ok st' →
      st'.status.game_complete = st.status.game_complete := by
  induction caps with
  | nil =>
    intro st st' h
    simp only [List.foldlM_nil] at h
    cases h
    rfl
  | cons c t ih =>
    intro st st' h
    rw [List.foldlM_cons] at h
    obtain ⟨s1, hs1, hrest⟩ := exceptBind_ok h
    have hupd : applyUpdate_literal st c = .ok s1 := by
      unfold applyCaptureStep at hs1
      split at hs1
      · cases hs1
      · split at hs1
        · exact hs1
        · cases hs1
    rw [ih hrest, applyUpdate_literal_gc hupd]

theorem processUpdate_complete {st st1 : GameState} {u : PlayerMove}
    (h : processUpdate st u = .ok st1)
    (hgc0 : st.status.game_complete = false)
    (hgc : st1.status.game_complete = true) :
    st1.status.winner =
      (if (winnerList st1.status.scores st1.status.player_count).length = 1
        then (winnerList st1.status.scores st1.status.player_count).head? else none) := by
  unfold processUpdate at h
  split at h
  · cases h
  · split at h
    · cases h
    · split at h
      · cases h
      · split at h
        · cases h
          rw [hgc0] at hgc
          cases hgc
        · split at h
          · cases h
            rw [hgc0] at hgc
            cases hgc
          · obtain ⟨caps, hcaps, h2⟩ := exceptBind_ok h
            split at h2
            · cases h2
            · obtain ⟨sta, hsta, h3⟩ := exceptBind_ok h2
              obtain ⟨stb, hstb, h4⟩ := exceptBind_ok h3
              split at h4
              · obtain ⟨hb, _, hs, _, hpc, _, hwin⟩ := applyEndGame_ok h4
                rw [hwin, hs, hpc]
              · obtain ⟨res, hres, h5⟩ := exceptBind_ok h4
                split at h5
                · obtain ⟨hb, _, hs, _, hpc, _, hwin⟩ := applyEndGame_ok h5
                  rw [hwin, hs, hpc]
                · exfalso
                  simp only [pure, Except.pure, Except.ok.injEq] at h5
                  have hgcb : stb.status.game_complete = false := by
                    rw [capturesFold_gc hstb, applyUpdate_literal_gc hsta, hgc0]
                  rw [← h5] at hgc
                  simp only at hgc
                  rw [hgcb] at hgc
                  cases hgc

/-- C3: whenever `applyUpdates` ends the game, the winner it stores is
`some w` exactly when `w` is the unique player with the strictly greatest
score (equivalently, the unique player whose score equals the maximum);
when two or more players share the maximum the stored winner is `none`.
The score-bookkeeping invariant of the input state supplies the
non-negativity of scores that the two greater-or-equal scan loops rely
on. -/
theorem C3_endgame_winner {q : List PlayerMove} :
    ∀ {st st1 : GameState}, scoreInvariant st →
    applyUpdates st q = .ok st1 →
    st.status.game_complete = false →
    st1.status.game_complete = true →
    ∀ w : Nat, st1.status.winner = some w ↔
      (w < st1.status.player_count ∧ ∀ j, j < st1.status.player_count → j ≠ w →
        st1.status.scores.getD j 0 < st1.status.scores.getD w 0) := by
  induction q with
  | nil =>
    intro st st1 hinv h h0 h1
    unfold applyUpdates at h
    cases h
    rw [h0] at h1
    cases h1
  | cons u rest ih =>
    intro st st1 hinv h h0 h1
    unfold applyUpdates at h
    obtain ⟨stm, hstep, hrest⟩ := exceptBind_ok h
    by_cases hgc : stm.status.game_complete = true
    · cases rest with
      | nil =>
        unfold applyUpdates at hrest
        cases hrest
        have hwform := processUpdate_complete hstep h0 hgc
        have hinv1 := processUpdate_inv hstep hinv
        have hpos : ∀ i, 0 ≤ st1.status.scores.getD i 0 := by
          intro i
          rw [hinv1.2.1 i]
          exact Int.natCast_nonneg _
        intro w
        rw [hwform]
        exact winner_unique_iff st1.status.scores st1.status.player_count hpos w
      | cons u2 rest2 =>
        exfalso
        unfold applyUpdates at hrest
        obtain ⟨stmm, hstep2, _⟩ := exceptBind_ok hrest
        unfold processUpdate at hstep2
        rw [hgc] at hstep2
        cases hw : stm.status.winner.isSome <;> simp [hw] at hstep2
    · have hgc2 : stm.status.game_complete = false := by
        cases hx : stm.status.game_complete
        · rfl
        · exact absurd hx hgc
      exact ih (processUpdate_inv hstep hinv) hrest hgc2 h1

/-- A small mid-game position: a 3-cell line, `(0,0)` empty, `(1,0)` owned
by player 1, `(2,0)` owned by player 0; player 0 to move. -/
def demoC3_start : GameState :=
  { status :=
      { winner := none
        turn_index := 0
        size := 2
        game_complete := false
        empty_count := 1
        player_count := 2
        current_player := 0
        scores := [1, 1] }
    board :=
      [ ((0, 0), ⟨0, 0, 1, none⟩),
        ((1, 0), ⟨1, 0, 2, some 1⟩),
        ((2, 0), ⟨2, 0, 1, some 0⟩) ]
    potential_moves := [(0, 0)] }

/-- Player 0 plays the empty cell `(0,0)`, flanking `(1,0)`. -/
def demoC3_move : PlayerMove := ⟨0, 0, 0, 0, []⟩

/-- The completed game after the move: board full, player 0 wins 3-0. -/
def demoC3_end : GameState :=
  match applyUpdates demoC3_start [demoC3_move] with
  | .ok st => st
  | .error _ => demoC3_start

theorem C3_endgame_winner_witness :
    applyUpdates demoC3_start [demoC3_move] = .ok demoC3_end ∧
    demoC3_end.status.game_complete = true ∧
    demoC3_end.status.winner = some 0 := by
  have hinv : scoreInvariant demoC3_start := by
    refine ⟨by decide, ?_, by decide⟩
    intro i
    match i with
    | 0 => decide
    | 1 => decide
    | (n + 2) =>
      have h1 : ¬ ((1 : Nat) = n + 2) := by omega
      have h2 : ¬ ((0 : Nat) = n + 2) := by omega
      show (0 : Int) = _
      simp [demoC3_start, countOwned, h1, h2]
  have happ : applyUpdates demoC3_start [demoC3_move] = .ok demoC3_end := rfl
  refine ⟨happ, rfl, ?_⟩
  refine (C3_endgame_winner hinv happ rfl rfl 0).mpr ⟨by decide, ?_⟩
  intro j hj hjw
  match j with
  | 0 => exact absurd rfl hjw
  | 1 => decide

/-- The cell `i` steps beyond the first neighbour along direction `v` from
`qr`: position `qr + (i+1)·v` (index 0 is the immediate neighbour). -/
def rayPos (qr v : QR) (i : Nat) : QR :=
  (qr.1 + ((i : Int) + 1) * v.1, qr.2 + ((i : Int) + 1) * v.2)

/-- The owner stored at a position: `none` if off the board, `some owner`
otherwise. -/
def cellOwnerAt (board : BoardState) (p : QR) : Option (Option Nat) :=
  (lookupCell board p).map (fun c => c.owner)

/-- Spec-side: the cell at `p` is on the board and owned by an opponent of
`m`. -/
def opposingAt (board : BoardState) (m : Nat) (p : QR) : Bool :=
  match cellOwnerAt board p with
  | some (some o) => decide (o ≠ m)
  | _ => false

/-- Spec-side (from the claim's words): the length of the run of
opposing-owner cells starting immediately adjacent to `qr` along `v` that
terminates at a cell owned by the mover `m`; `none` when no such flank
completes.  The run length is at most the number of board cells, so the
bounded search is exhaustive. -/
def flankLen (board : BoardState) (m : Nat) (qr v : QR) : Option Nat :=
  (List.range (board.length + 1)).find? (fun n =>
    ((List.range n).all (fun i => opposingAt board m (rayPos qr v i))) &&
    decide (cellOwnerAt board (rayPos qr v n) = some (some m)))

/-- Spec-side: the captures contributed by direction `v` — the full run of
opposing cells, each relabelled to the mover, when the flank completes, and
nothing otherwise. -/
def flankCaptures (board : BoardState) (m : Nat) (qr v : QR) : List CellCapture :=
  match flankLen board m qr v with
  | some n => (List.range n).map (fun i => ⟨(rayPos qr v i).1, (rayPos qr v i).2, some m⟩)
  | none => []

theorem rayPos_inj {qr v : QR} (hv : v ≠ ((0 : Int), (0 : Int))) :
    ∀ {i j : Nat}, rayPos qr v i = rayPos qr v j → i = j := by
  intro i j h
  simp only [rayPos, Prod.mk.injEq] at h
  obtain ⟨h1, h2⟩ := h
  have hv2 : v.1 ≠ 0 ∨ v.2 ≠ 0 := by
    by_contra hcon
    push_neg at hcon
    exact hv (Prod.ext hcon.1 hcon.2)
  have h1a : ((i : Int) + 1) * v.1 = ((j : Int) + 1) * v.1 := by omega
  have h2a : ((i : Int) + 1) * v.2 = ((j : Int) + 1) * v.2 := by omega
  rcases hv2 with hv1 | hv2
  · have := mul_right_cancel₀ hv1 h1a
    omega
  · have := mul_right_cancel₀ hv2 h2a
    omega

theorem lookupCell_isSome_mem {b : BoardState} {p : QR} {c : CellStatus}
    (h : lookupCell b p = some c) : p ∈ b.map (fun e => e.1) := by
  unfold lookupCell at h
  cases hf : b.find? (fun e => e.1 = p) with
  | none => rw [hf] at h; cases h
  | some e =>
    have hmem := List.mem_of_find?_eq_some hf
    have hpred := List.find?_some hf
    simp only [decide_eq_true_eq] at hpred
    rw [← hpred]
    exact List.mem_map_of_mem _ hmem

theorem opposing_run_le {board : BoardState} {m : Nat} {qr v : QR} {j : Nat}
    (hv : v ≠ ((0 : Int), (0 : Int)))
    (hop : ∀ i, i < j → opposingAt board m (rayPos qr v i) = true) :
    j ≤ board.length := by
  have hmem : ∀ i, i < j → rayPos qr v i ∈ board.map (fun e => e.1) := by
    intro i hi
    have := hop i hi
    unfold opposingAt at this
    cases hco : cellOwnerAt board (rayPos qr v i) with
    | none => rw [hco] at this; cases this
    | some o =>
      unfold cellOwnerAt at hco
      cases hl : lookupCell board (rayPos qr v i) with
      | none => rw [hl] at hco; cases hco
      | some c => exact lookupCell_isSome_mem hl
  have hnd : ((List.range j).map (rayPos qr v)).Nodup :=
    List.Nodup.map (fun a b hab => rayPos_inj hv hab) (List.nodup_range j)
  have hsub : ((List.range j).map (rayPos qr v)).toFinset ⊆ (board.map (fun e => e.1)).toFinset := by
    intro x hx
    rw [List.mem_toFinset] at hx
    rw [List.mem_toFinset]
    obtain ⟨i, hi, rfl⟩ := List.mem_map.mp hx
    exact hmem i (List.mem_range.mp hi)
  have hcard1 : ((List.range j).map (rayPos qr v)).toFinset.card = j := by
    rw [List.toFinset_card_of_nodup hnd]
    simp
  have hcard2 := Finset.card_le_card hsub
  have hcard3 := List.toFinset_card_le (board.map (fun e => e.1))
  simp only [List.length_map] at hcard3
  omega

theorem range'_find?_eq_some {p : Nat → Bool} :
    ∀ (len s j : Nat), s ≤ j → j < s + len → p j = true →
    (∀ k, s ≤ k → k < j → p k = false) →
    (List.range' s len).find? p = some j := by
  intro len
  induction len with
  | zero => intro s j h1 h2; omega
  | succ n ih =>
    intro s j h1 h2 hp hmin
    rw [List.range'_succ, List.find?_cons]
    rcases eq_or_lt_of_le h1 with rfl | hlt
    · rw [hp]
    · rw [hmin s le_rfl hlt]
      exact ih (s + 1) j hlt (by omega) hp (fun k hk1 hk2 => hmin k (by omega) hk2)

theorem range_find?_eq_some {p : Nat → Bool} {n j : Nat} (hj : j < n) (hp : p j = true)
    (hmin : ∀ k, k < j → p k = false) : (List.range n).find? p = some j := by
  rw [List.range_eq_range']
  exact range'_find?_eq_some n 0 j (Nat.zero_le j) (by omega) hp (fun k _ hk => hmin k hk)

theorem flankPred_false_of_lt {board : BoardState} {m : Nat} {qr v : QR} {j : Nat}
    (hop : ∀ i, i < j → opposingAt board m (rayPos qr v i) = true) :
    ∀ n, n < j →
      (((List.range n).all (fun i => opposingAt board m (rayPos qr v i))) &&
        decide (cellOwnerAt board (rayPos qr v n) = some (some m))) = false := by
  intro n hn
  have h := hop n hn
  unfold opposingAt at h
  cases hco : cellOwnerAt board (rayPos qr v n) with
  | none => rw [hco] at h; cases h
  | some oo =>
    cases oo with
    | none => rw [hco] at h; cases h
    | some o =>
      rw [hco] at h
      simp only [decide_eq_true_eq] at h
      simp [h]

theorem flankPred_false_of_gt {board : BoardState} {m : Nat} {qr v : QR} {j : Nat}
    (hstop : opposingAt board m (rayPos qr v j) = false) :
    ∀ n, j < n →
      (((List.range n).all (fun i => opposingAt board m (rayPos qr v i))) &&
        decide (cellOwnerAt board (rayPos qr v n) = some (some m))) = false := by
  intro n hn
  have hall : ((List.range n).all (fun i => opposingAt board m (rayPos qr v i))) = false := by
    cases hall2 : ((List.range n).all (fun i => opposingAt board m (rayPos qr v i))) with
    | false => rfl
    | true =>
      rw [List.all_eq_true] at hall2
      have := hall2 j (List.mem_range.mpr hn)
      rw [hstop] at this
      cases this
  rw [hall, Bool.false_and]

theorem rayPos_succ (qr v : QR) (j : Nat) :
    ((rayPos qr v j).1 + v.1, (rayPos qr v j).2 + v.2) = rayPos qr v (j + 1) := by
  simp only [rayPos, Prod.mk.injEq]
  constructor <;> push_cast <;> ring

theorem captureWalk_eq_flankCaptures {board : BoardState} {m : Nat} {qr v : QR}
    (hv : v ≠ ((0 : Int), (0 : Int))) :
    ∀ (fuel j : Nat),
      (∀ i, i < j → opposingAt board m (rayPos qr v i) = true) →
      board.length + 1 ≤ fuel + j →
      captureWalk board (some m) v (rayPos qr v j)
        ((List.range j).map (fun i => ⟨(rayPos qr v i).1, (rayPos qr v i).2, some m⟩)) fuel
        = flankCaptures board m qr v := by
  intro fuel
  induction fuel with
  | zero =>
    intro j hop hbud
    exfalso
    have := opposing_run_le hv hop
    omega
  | succ f ih =>
    intro j hop hbud
    have hjle := opposing_run_le hv hop
    cases hL : lookupCell board (rayPos qr v j) with
    | none =>
      have hwalk : captureWalk board (some m) v (rayPos qr v j)
          ((List.range j).map (fun i => ⟨(rayPos qr v i).1, (rayPos qr v i).2, some m⟩)) (f + 1)
          = [] := by
        simp [captureWalk, hL]
      rw [hwalk]
      have hco : cellOwnerAt board (rayPos qr v j) = none := by
        simp [cellOwnerAt, hL]
      have hstop : opposingAt board m (rayPos qr v j) = false := by
        unfold opposingAt
        rw [hco]
      have hnone : flankLen board m qr v = none := by
        unfold flankLen
        rw [List.find?_eq_none]
        intro n _
        rcases Nat.lt_trichotomy n j with hlt | rfl | hgt
        · rw [flankPred_false_of_lt hop n hlt]
          simp
        · have hd : decide (cellOwnerAt board (rayPos qr v n) = some (some m)) = false := by
            rw [hco]
            simp
          rw [hd, Bool.and_false]
          simp
        · rw [flankPred_false_of_gt hstop n hgt]
          simp
      unfold flankCaptures
      rw [hnone]
    | some c =>
      cases hO : c.owner with
      | none =>
        have hwalk : captureWalk board (some m) v (rayPos qr v j)
            ((List.range j).map (fun i => ⟨(rayPos qr v i).1, (rayPos qr v i).2, some m⟩)) (f + 1)
            = [] := by
          simp [captureWalk, hL, hO]
        rw [hwalk]
        have hco : cellOwnerAt board (rayPos qr v j) = some none := by
          simp [cellOwnerAt, hL, hO]
        have hstop : opposingAt board m (rayPos qr v j) = false := by
          unfold opposingAt
          rw [hco]
        have hnone : flankLen board m qr v = none := by
          unfold flankLen
          rw [List.find?_eq_none]
          intro n _
          rcases Nat.lt_trichotomy n j with hlt | rfl | hgt
          · rw [flankPred_false_of_lt hop n hlt]
            simp
          · have hd : decide (cellOwnerAt board (rayPos qr v n) = some (some m)) = false := by
              rw [hco]
              simp
            rw [hd, Bool.and_false]
            simp
          · rw [flankPred_false_of_gt hstop n hgt]
            simp
        unfold flankCaptures
        rw [hnone]
      | some o =>
        have hco : cellOwnerAt board (rayPos qr v j) = some (some o) := by
          simp [cellOwnerAt, hL, hO]
        by_cases hom : o = m
        · subst hom
          have hwalk : captureWalk board (some o) v (rayPos qr v j)
              ((List.range j).map (fun i => ⟨(rayPos qr v i).1, (rayPos qr v i).2, some o⟩)) (f + 1)
              = (List.range j).map (fun i => ⟨(rayPos qr v i).1, (rayPos qr v i).2, some o⟩) := by
            simp [captureWalk, hL, hO]
          rw [hwalk]
          have hsome : flankLen board o qr v = some j := by
            unfold flankLen
            apply range_find?_eq_some
            · omega
            · rw [Bool.and_eq_true]
              constructor
              · rw [List.all_eq_true]
                intro i hi
                exact hop i (List.mem_range.mp hi)
              · rw [hco]
                simp
            · exact flankPred_false_of_lt hop
          unfold flankCaptures
          rw [hsome]
        · have hwalk : captureWalk board (some m) v (rayPos qr v j)
              ((List.range j).map (fun i => ⟨(rayPos qr v i).1, (rayPos qr v i).2, some m⟩)) (f + 1)
              = captureWalk board (some m) v ((rayPos qr v j).1 + v.1, (rayPos qr v j).2 + v.2)
                  (((List.range j).map (fun i => ⟨(rayPos qr v i).1, (rayPos qr v i).2, some m⟩))
                    ++ [⟨(rayPos qr v j).1, (rayPos qr v j).2, some m⟩]) f := by
            simp [captureWalk, hL, hO, hom]
          rw [hwalk, rayPos_succ]
          have hacc : ((List.range j).map (fun i => ⟨(rayPos qr v i).1, (rayPos qr v i).2, some m⟩))
              ++ [(⟨(rayPos qr v j).1, (rayPos qr v j).2, some m⟩ : CellCapture)]
              = (List.range (j + 1)).map (fun i => ⟨(rayPos qr v i).1, (rayPos qr v i).2, some m⟩) := by
            rw [List.range_succ, List.map_append]
            rfl
          rw [hacc]
          apply ih (j + 1)
          · intro i hi
            rcases Nat.lt_or_ge i j with h2 | h2
            · exact hop i h2
            · have : i = j := by omega
              subst this
              unfold opposingAt
              rw [hco]
              simp [hom]
          · omega

theorem foldl_append_eq_flatten {α β : Type} (l : List α) (g : α → List β) :
    ∀ init : List β, l.foldl (fun acc v => acc ++ g v) init = init ++ (l.map g).flatten := by
  induction l with
  | nil => intro init; simp
  | cons a t ih =>
    intro init
    rw [List.foldl_cons, ih, List.map_cons, List.flatten_cons, List.append_assoc]

/-- C1: for a candidate move on an unowned target cell, `getCaptures_forMove`
returns exactly the concatenation, over the six clockwise direction vectors,
of the runs of opposing-owner cells that start immediately adjacent to the
target and terminate at a mover-owned cell, each capture relabelled to the
mover (`flankCaptures` is the direct transcription of that description); a
direction whose run reaches an empty cell or leaves the board contributes
nothing (`flankCaptures` is `[]` there by definition of `flankLen`), and the
result is empty exactly when every direction contributes nothing. -/
theorem C1_captures_are_flanks (u : CellCapture) (board : BoardState) (m : Nat)
    (c : CellStatus) (hm : u.owner = some m)
    (hc : lookupCell board (u.q, u.r) = some c) (hempty : c.owner = none) :
    getCaptures_forMove u board
      = .ok ((CLOCKWISE_UNIT_VECTOR_LIST.map (flankCaptures board m (u.q, u.r))).flatten) ∧
    (((CLOCKWISE_UNIT_VECTOR_LIST.map (flankCaptures board m (u.q, u.r))).flatten = []) ↔
      ∀ v ∈ CLOCKWISE_UNIT_VECTOR_LIST, flankCaptures board m (u.q, u.r) v = []) := by
  constructor
  · unfold getCaptures_forMove
    rw [hc]
    simp only [hempty, Option.isSome_none, Bool.false_eq_true, if_false, Except.ok.injEq]
    rw [foldl_append_eq_flatten, List.nil_append]
    congr 1
    apply List.map_congr_left
    intro v hvmem
    have hall : ∀ w ∈ CLOCKWISE_UNIT_VECTOR_LIST, w ≠ ((0 : Int), (0 : Int)) := by decide
    have hv := hall v hvmem
    have hstart : ((u.q + v.1, u.r + v.2) : QR) = rayPos (u.q, u.r) v 0 := by
      simp [rayPos]
    rw [hm, hstart]
    have h0 := @captureWalk_eq_flankCaptures board m (u.q, u.r) v hv (board.length + 1) 0
      (fun i hi => absurd hi (Nat.not_lt_zero i)) (by omega)
    simpa using h0
  · rw [List.flatten_eq_nil_iff]
    constructor
    · intro h v hv
      exact h _ (List.mem_map_of_mem _ hv)
    · intro h l hl
      obtain ⟨v, hv, rfl⟩ := List.mem_map.mp hl
      exact h v hv

/-- Witness for C1 on the 3-cell demo board: player 0 moving to the empty
`(0,0)` flips exactly the single opposing cell `(1,0)`. -/
theorem C1_captures_are_flanks_witness :
    getCaptures_forMove ⟨0, 0, some 0⟩ demoC3_start.board
      = .ok ((CLOCKWISE_UNIT_VECTOR_LIST.map (flankCaptures demoC3_start.board 0 (0, 0))).flatten) ∧
    getCaptures_forMove ⟨0, 0, some 0⟩ demoC3_start.board = .ok [⟨1, 0, some 0⟩] :=
  ⟨(C1_captures_are_flanks ⟨0, 0, some 0⟩ demoC3_start.board 0 ⟨0, 0, 1, none⟩ rfl rfl rfl).1,
    rfl⟩

/-- `int(''.join(bits), 2)`: read a bit list as a big-endian binary number
(index 0 is the most significant bit). -/
def bitsToNat (bs : List Bool) : Nat :=
  bs.foldl (fun acc b => 2 * acc + (if b then 1 else 0)) 0

/-- `_state_asInt` from `history.py`: `state.astype(bool)` maps every
non-zero entry to a one bit, then the joined bit string is read in base 2.
`int('', 2)` on an empty vector raises a `ValueError`. -/
def _state_asInt (state : List Int) : Except String Nat :=
  if state = [] then .error ("ValueError")
  else .ok (bitsToNat (state.map (fun x => decide (x ≠ 0))))

/-- `bin(n)[2:]` as a bit list: big-endian binary digits, `[false]` for 0
(Python renders `bin(0)[2:] = "0"`). -/
def binDigits (n : Nat) : List Bool :=
  if _h : n < 2 then [n == 1]
  else binDigits (n / 2) ++ [n % 2 == 1]
termination_by n
decreasing_by
  exact Nat.div_lt_self (by omega) (by omega)

/-- `_state_fromInt` from `history.py`: binary expansion, left-padded with
zeros to `length` via `rjust` (which never truncates), mapped back to
`0.0`/`1.0` floats. -/
def _state_fromInt (state : Nat) (length : Nat) : List Int :=
  (List.replicate (length - (binDigits state).length) false ++ binDigits state).map
    (fun b => if b then (1 : Int) else 0)

theorem bitsToNat_append_bit (bs : List Bool) (b : Bool) :
    bitsToNat (bs ++ [b]) = 2 * bitsToNat bs + (if b then 1 else 0) := by
  unfold bitsToNat
  rw [List.foldl_append, List.foldl_cons, List.foldl_nil]

theorem bitsToNat_cons_aux (bs : List Bool) :
    ∀ a : Nat, bs.foldl (fun acc b => 2 * acc + (if b then 1 else 0)) a ≥ a ∨ bs = [] := by
  induction bs with
  | nil => intro a; right; rfl
  | cons b t ih =>
    intro a
    left
    rcases ih (2 * a + (if b then 1 else 0)) with h | h
    · rw [List.foldl_cons]
      omega
    · subst h
      simp only [List.foldl_cons, List.foldl_nil]
      omega

theorem bitsToNat_ge (bs : List Bool) (a : Nat) :
    a ≤ bs.foldl (fun acc b => 2 * acc + (if b then 1 else 0)) a := by
  induction bs generalizing a with
  | nil => simp
  | cons b t ih =>
    rw [List.foldl_cons]
    calc a ≤ 2 * a + (if b then 1 else 0) := by omega
      _ ≤ _ := ih _

theorem bitsToNat_true_pos (rest : List Bool) : 0 < bitsToNat (true :: rest) := by
  unfold bitsToNat
  rw [List.foldl_cons]
  calc 0 < 2 * 0 + (if true then 1 else 0) := by norm_num
    _ ≤ _ := bitsToNat_ge rest _

theorem binDigits_two_mul (m : Nat) (b : Bool) (hm : 0 < m) :
    binDigits (2 * m + (if b then 1 else 0)) = binDigits m ++ [b] := by
  have hge : ¬ (2 * m + (if b then 1 else 0) < 2) := by
    cases b
    all_goals simp
    all_goals omega
  rw [binDigits, dif_neg hge]
  have hdiv : (2 * m + (if b then 1 else 0)) / 2 = m := by
    cases b
    all_goals simp
    all_goals omega
  have hmod : ((2 * m + (if b then 1 else 0)) % 2 == 1) = b := by
    cases b
    all_goals simp [Nat.mul_add_mod]
  rw [hdiv, hmod]

theorem binDigits_bitsToNat_true (rest : List Bool) :
    binDigits (bitsToNat (true :: rest)) = true :: rest := by
  induction rest using List.reverseRecOn with
  | nil =>
    have h1 : bitsToNat [true] = 1 := rfl
    rw [h1, binDigits]
    simp
  | append_singleton rest b ih =>
    have h1 : bitsToNat (true :: (rest ++ [b])) = 2 * bitsToNat (true :: rest) + (if b then 1 else 0) := by
      rw [show true :: (rest ++ [b]) = (true :: rest) ++ [b] from rfl]
      exact bitsToNat_append_bit (true :: rest) b
    rw [h1, binDigits_two_mul _ b (bitsToNat_true_pos rest), ih]
    rfl

theorem bitsToNat_false_cons (bs : List Bool) : bitsToNat (false :: bs) = bitsToNat bs := by
  unfold bitsToNat
  rw [List.foldl_cons]
  norm_num

theorem binDigits_zero : binDigits 0 = [false] := by
  rw [binDigits]
  simp

theorem bitsToNat_dropFalse (bs : List Bool) :
    bitsToNat bs = bitsToNat (bs.dropWhile (fun b => !b)) := by
  induction bs with
  | nil => rfl
  | cons b t ih =>
    cases b with
    | false =>
      rw [bitsToNat_false_cons, ih]
      rfl
    | true => rfl

theorem dropFalse_shape (bs : List Bool) :
    bs.dropWhile (fun b => !b) = [] ∨ ∃ rest, bs.dropWhile (fun b => !b) = true :: rest := by
  induction bs with
  | nil => exact Or.inl rfl
  | cons b t ih =>
    cases b with
    | false => simpa using ih
    | true => exact Or.inr ⟨t, rfl⟩

theorem takeFalse_all_false (bs : List Bool) :
    ∀ b ∈ bs.takeWhile (fun b => !b), b = false := by
  intro b hb
  have := List.mem_takeWhile_imp hb
  simp at this
  exact this

theorem fromInt_bits (bs : List Bool) (hne : bs ≠ []) :
    List.replicate (bs.length - (binDigits (bitsToNat bs)).length) false
      ++ binDigits (bitsToNat bs) = bs := by
  have hsplit : bs.takeWhile (fun b => !b) ++ bs.dropWhile (fun b => !b) = bs :=
    List.takeWhile_append_dropWhile (fun b => !b) bs
  rcases dropFalse_shape bs with hds | ⟨rest, hds⟩
  · -- every bit is zero
    have hall : ∀ b ∈ bs, b = false := by
      intro b hb
      rw [← hsplit] at hb
      rw [hds, List.append_nil] at hb
      exact takeFalse_all_false bs b hb
    have hz : bitsToNat bs = 0 := by
      rw [bitsToNat_dropFalse, hds]
      rfl
    rw [hz, binDigits_zero]
    have hlen : 1 ≤ bs.length := by
      cases bs with
      | nil => exact absurd rfl hne
      | cons b t => simp
    have hrep : bs = List.replicate bs.length false := by
      rw [List.eq_replicate_iff]
      exact ⟨rfl, hall⟩
    rw [hrep]
    simp only [List.length_replicate, List.length_cons, List.length_nil]
    rw [← List.replicate_succ']
    congr 1
    omega
  · have hbits : bitsToNat bs = bitsToNat (true :: rest) := by
      rw [bitsToNat_dropFalse, hds]
    rw [hbits, binDigits_bitsToNat_true]
    have htake : bs.takeWhile (fun b => !b)
        = List.replicate (bs.takeWhile (fun b => !b)).length false := by
      rw [List.eq_replicate_iff]
      exact ⟨rfl, takeFalse_all_false bs⟩
    have hlen : bs.length = (bs.takeWhile (fun b => !b)).length + (rest.length + 1) := by
      conv_lhs => rw [← hsplit]
      rw [List.length_append, hds]
      simp
    rw [hlen]
    have hsub : (bs.takeWhile (fun b => !b)).length + (rest.length + 1) - (true :: rest).length
        = (bs.takeWhile (fun b => !b)).length := by
      simp
    rw [hsub]
    conv_rhs => rw [← hsplit, hds, htake]

theorem state_roundtrip (v : List Int) (hne : v ≠ []) (h01 : ∀ x ∈ v, x = 0 ∨ x = 1) :
    (_state_asInt v).map (fun n => _state_fromInt n v.length) = .ok v := by
  unfold _state_asInt
  rw [if_neg hne]
  show Except.ok (_state_fromInt (bitsToNat (v.map (fun x => decide (x ≠ 0)))) v.length) = .ok v
  congr 1
  unfold _state_fromInt
  have hbne : v.map (fun x => decide (x ≠ 0)) ≠ [] := by
    intro hcon
    exact hne (List.map_eq_nil_iff.mp hcon)
  have hlen : v.length = (v.map (fun x => decide (x ≠ 0))).length := by simp
  rw [hlen, fromInt_bits _ hbne]
  rw [List.map_map]
  have : ∀ x ∈ v, ((fun b => if b then (1 : Int) else 0) ∘ fun x => decide (x ≠ 0)) x = x := by
    intro x hx
    rcases h01 x hx with rfl | rfl <;> simp
  rw [List.map_congr_left this]
  simp

/-- The three dense-vector columns of one history row (`history.py`). -/
structure HistoryVecRow where
  board_state : List Int
  action_choices : List Int
  player_action : List Int
deriving DecidableEq, Repr

/-- One row of a disk history: the same three columns as integers. -/
structure HistoryIntRow where
  board_state : Nat
  action_choices : Nat
  player_action : Nat
deriving DecidableEq, Repr

/-- `history_asInt` (`history.py`), per row: encode the three vector columns
with `_state_asInt`; all other columns pass through the `row | {...}` merge
unchanged. -/
def historyRow_asInt (r : HistoryVecRow) : Except String HistoryIntRow := do
  let b ← _state_asInt r.board_state
  let a ← _state_asInt r.action_choices
  let p ← _state_asInt r.player_action
  pure ⟨b, a, p⟩

/-- `history_fromInt` (`history.py`), per row: the decode lengths are
`get_spaceCount_forSize(size) * player_count` for `board_state` and
`get_spaceCount_forSize(size)` for the other two columns. -/
def historyRow_fromInt (size player_count : Nat) (r : HistoryIntRow) :
    Except String HistoryVecRow := do
  let board_size ← get_spaceCount_forSize size none
  pure ⟨_state_fromInt r.board_state (board_size * player_count),
        _state_fromInt r.action_choices board_size,
        _state_fromInt r.player_action board_size⟩

/-- C4: `_state_fromInt` is an exact inverse of `_state_asInt` on non-empty
0/1 vectors at their own length (in particular `[1,0,1,1,0,0]` encodes to
44), and per history row `history_fromInt` after `history_asInt` reproduces
the `board_state`, `action_choices` and `player_action` vectors bit for bit
when their lengths are `spaceCount(size) * player_count` and
`spaceCount(size)` as the decoder derives them. -/
theorem C4_disk_roundtrip :
    (∀ v : List Int, v ≠ [] → (∀ x ∈ v, x = 0 ∨ x = 1) →
      (_state_asInt v).map (fun n => _state_fromInt n v.length) = .ok v) ∧
    _state_asInt [1, 0, 1, 1, 0, 0] = .ok 44 ∧
    (∀ (size player_count n : Nat) (r : HistoryVecRow),
      get_spaceCount_forSize size none = .ok n →
      r.board_state.length = n * player_count →
      r.action_choices.length = n →
      r.player_action.length = n →
      r.board_state ≠ [] → r.action_choices ≠ [] → r.player_action ≠ [] →
      (∀ x ∈ r.board_state, x = 0 ∨ x = 1) →
      (∀ x ∈ r.action_choices, x = 0 ∨ x = 1) →
      (∀ x ∈ r.player_action, x = 0 ∨ x = 1) →
      (historyRow_asInt r).bind (historyRow_fromInt size player_count) = .ok r) := by
  have hcomp : ∀ (v : List Int) (len : Nat), v ≠ [] → (∀ x ∈ v, x = 0 ∨ x = 1) →
      v.length = len → ∀ nv, _state_asInt v = .ok nv → _state_fromInt nv len = v := by
    intro v len hne h01 hlen nv hnv
    have := state_roundtrip v hne h01
    rw [hnv] at this
    simp only [Except.map, Except.ok.injEq] at this
    rw [← hlen]
    exact this
  refine ⟨fun v hne h01 => state_roundtrip v hne h01, rfl, ?_⟩
  intro size player_count n r hn hb ha hp hbne hane hpne hb01 ha01 hp01
  unfold historyRow_asInt
  cases hvb : _state_asInt r.board_state with
  | error e =>
    unfold _state_asInt at hvb
    rw [if_neg hbne] at hvb
    cases hvb
  | ok nb =>
    cases hva : _state_asInt r.action_choices with
    | error e =>
      unfold _state_asInt at hva
      rw [if_neg hane] at hva
      cases hva
    | ok na =>
      cases hvp : _state_asInt r.player_action with
      | error e =>
        unfold _state_asInt at hvp
        rw [if_neg hpne] at hvp
        cases hvp
      | ok np =>
        simp only [hvb, hva, hvp, Bind.bind, Except.bind, pure, Except.pure]
        unfold historyRow_fromInt
        rw [hn]
        simp only [Bind.bind, Except.bind, pure, Except.pure, Except.ok.injEq]
        have e1 := hcomp r.board_state (n * player_count) hbne hb01 hb nb hvb
        have e2 := hcomp r.action_choices n hane ha01 ha na hva
        have e3 := hcomp r.player_action n hpne hp01 hp np hvp
        cases r
        simp only at e1 e2 e3
        simp [e1, e2, e3]

/-- Witness for C4: the mixed vector `[1,0,1,1,0,0]` from the spec, and a
concrete size-3 two-player row. -/
theorem C4_disk_roundtrip_witness :
    (_state_asInt [1, 0, 1, 1, 0, 0]).map
        (fun n => _state_fromInt n ([1, 0, 1, 1, 0, 0] : List Int).length)
      = .ok [1, 0, 1, 1, 0, 0] ∧
    (historyRow_asInt ⟨List.replicate 38 1, List.replicate 19 1, List.replicate 19 0⟩).bind
        (historyRow_fromInt 3 2)
      = .ok ⟨List.replicate 38 1, List.replicate 19 1, List.replicate 19 0⟩ :=
  ⟨(C4_disk_roundtrip.1 [1, 0, 1, 1, 0, 0] (by decide) (by decide)),
   (C4_disk_roundtrip.2.2 3 2 19 ⟨List.replicate 38 1, List.replicate 19 1, List.replicate 19 0⟩
      rfl (by decide) (by decide) (by decide) (by decide) (by decide) (by decide)
      (by decide) (by decide) (by decide))⟩

/-- `np.roll(l, -k)`: cyclic left rotation by `k` (modulo the length). -/
def rollLeft {α : Type} (l : List α) (k : Nat) : List α :=
  l.drop (k % l.length) ++ l.take (k % l.length)

/-- The `while _cursor + player_count <= len(...)` loop of
`get_relativeStateVector` (`history.py`): rotate each complete
`player_count`-wide block left by `player_id`; positions past the last
complete block keep the zeros of the freshly allocated output vector.  The
loop body is only reachable with `player_count ≥ 2` (the function asserts
`player_id < player_count` and returns early for `player_id = 0`), which the
`0 < player_count` guard encodes.  The fuel argument (initially the vector
length) only bounds the iteration count: each iteration consumes at least
one element, so `fuel ≥ length` is invariant and exhaustion coincides with
the empty remainder. -/
def rotBlocksLoop (player_count player_id : Nat) : List Int → Nat → List Int
  | v, 0 => List.replicate v.length 0
  | v, fuel + 1 =>
    if 0 < player_count ∧ player_count ≤ v.length then
      rollLeft (v.take player_count) player_id
        ++ rotBlocksLoop player_count player_id (v.drop player_count) fuel
    else List.replicate v.length 0

/-- `get_relativeStateVector` (`history.py`): `assert player_id <
player_count`, identity for player 0, otherwise the block-rotation loop. -/
def get_relativeStateVector (boardState_vector : List Int)
    (player_id player_count : Nat) : Except String (List Int) :=
  if player_id < player_count then
    if player_id = 0 then .ok boardState_vector
    else .ok (rotBlocksLoop player_count player_id boardState_vector boardState_vector.length)
  else .error ("AssertionError")

/-- Spec-side: split into `pc`-wide blocks (complete blocks only). -/
def chunksOf {α : Type} (pc : Nat) (l : List α) : List (List α) :=
  if _h : pc = 0 ∨ l.length = 0 then [] else (l.take pc) :: chunksOf pc (l.drop pc)
termination_by l.length
decreasing_by
  simp only [not_or] at _h
  simp [List.length_drop]
  omega

/-- The fixed columns of a literal history (`history.py`). -/
structure LiteralFixed where
  player_count : Nat
  size : Nat
  winner : Option Nat
  scores : List Int
deriving DecidableEq, Repr

/-- The per-row columns of a literal history row (`history.py`). -/
structure LiteralRow where
  turn_index : Nat
  current_player : Nat
  board_state : List Int
  action_choices : List Int
  player_action : List Int
  ai_id : String
  action_tags : List String
deriving DecidableEq, Repr

/-- One appended row of the pov history (`history.py`): the literal row with
`winner`/`scores`/`board_state` recomputed per row. -/
structure PovRow where
  turn_index : Nat
  current_player : Nat
  board_state : List Int
  action_choices : List Int
  player_action : List Int
  ai_id : String
  action_tags : List String
  scores : List Int
  winner : Option Nat
deriving DecidableEq, Repr

/-- The per-row body of `povHistory_from_literalHistory` (`history.py`): the
winner becomes `(literal_winner - current_player) % player_count` (`None`
stays `None`), the scores are `np.roll(scores, -current_player)`, the board
vector goes through `get_relativeStateVector`, and every other column of the
merged `row | {...}` dictionary passes through unchanged (the `JyFrame`
append stores the merged values as given). -/
def povRow_from_literalRow (fix : LiteralFixed) (row : LiteralRow) :
    Except String PovRow := do
  let bs ← get_relativeStateVector row.board_state row.current_player fix.player_count
  pure { turn_index := row.turn_index
         current_player := row.current_player
         board_state := bs
         action_choices := row.action_choices
         player_action := row.player_action
         ai_id := row.ai_id
         action_tags := row.action_tags
         scores := rollLeft fix.scores row.current_player
         winner :=
           match fix.winner with
           | none => none
           | some w =>
             some ((((w : Int) - (row.current_player : Int)) % (fix.player_count : Int)).toNat) }

theorem rollLeft_zero {α : Type} (l : List α) : rollLeft l 0 = l := by
  simp [rollLeft]

theorem chunksOf_flatten {α : Type} (pc : Nat) (hpc : 0 < pc) (v : List α) :
    (chunksOf pc v).flatten = v := by
  suffices h : ∀ (n : Nat) (v : List α), v.length ≤ n → (chunksOf pc v).flatten = v from
    h v.length v le_rfl
  intro n
  induction n with
  | zero =>
    intro v hv
    have hnil : v = [] := List.eq_nil_of_length_eq_zero (by omega)
    subst hnil
    rw [chunksOf]
    simp
  | succ n ih =>
    intro v hv
    by_cases hv0 : v.length = 0
    · have hnil : v = [] := List.eq_nil_of_length_eq_zero hv0
      subst hnil
      rw [chunksOf]
      simp
    · rw [chunksOf, dif_neg (by omega)]
      rw [List.flatten_cons]
      rw [ih (v.drop pc) (by rw [List.length_drop]; omega)]
      exact List.take_append_drop pc v

theorem rotBlocksLoop_eq_chunks (pc pid : Nat) (hpc : 0 < pc) :
    ∀ (fuel : Nat) (v : List Int), v.length ≤ fuel → pc ∣ v.length →
      rotBlocksLoop pc pid v fuel
        = ((chunksOf pc v).map (fun blk => rollLeft blk pid)).flatten := by
  intro fuel
  induction fuel with
  | zero =>
    intro v hv hdvd
    have hnil : v = [] := List.eq_nil_of_length_eq_zero (by omega)
    subst hnil
    rw [chunksOf]
    simp [rotBlocksLoop]
  | succ f ih =>
    intro v hv hdvd
    by_cases hv0 : v.length = 0
    · have hnil : v = [] := List.eq_nil_of_length_eq_zero hv0
      subst hnil
      rw [chunksOf]
      simp only [rotBlocksLoop, if_neg (fun hc => by omega : ¬ (0 < pc ∧ pc ≤ List.length ([] : List Int)))]
      simp
    · have hple : pc ≤ v.length := Nat.le_of_dvd (by omega) hdvd
      have hstep : rotBlocksLoop pc pid v (f + 1)
          = rollLeft (v.take pc) pid ++ rotBlocksLoop pc pid (v.drop pc) f := by
        rw [rotBlocksLoop, if_pos ⟨hpc, hple⟩]
      rw [hstep, chunksOf, dif_neg (by omega), List.map_cons, List.flatten_cons]
      congr 1
      apply ih
      · rw [List.length_drop]
        omega
      · rw [List.length_drop]
        exact Nat.dvd_sub' hdvd dvd_rfl

/-- C5: for every literal fixed block and row (with the board vector a
whole number of `player_count`-wide blocks, as every encoded board is), the
pov row produced by `povHistory_from_literalHistory` carries winner
`(literal_winner - current_player) mod player_count` (`None` when absent),
the scores rotated left by `current_player`, the board vector with every
`player_count`-wide block cyclically rotated left by `current_player`
(the identity when `current_player = 0`), and unchanged `current_player`,
`player_action`, `action_choices`, `turn_index`, `ai_id` and
`action_tags`. -/
theorem C5_pov_transform (fix : LiteralFixed) (row : LiteralRow) (out : PovRow)
    (h : povRow_from_literalRow fix row = .ok out)
    (hdvd : fix.player_count ∣ row.board_state.length) :
    out.winner = (match fix.winner with
      | none => none
      | some w =>
        some ((((w : Int) - (row.current_player : Int)) % (fix.player_count : Int)).toNat)) ∧
    out.scores = rollLeft fix.scores row.current_player ∧
    out.board_state = ((chunksOf fix.player_count row.board_state).map
        (fun blk => rollLeft blk row.current_player)).flatten ∧
    (row.current_player = 0 → out.board_state = row.board_state) ∧
    out.current_player = row.current_player ∧
    out.player_action = row.player_action ∧
    out.action_choices = row.action_choices ∧
    out.turn_index = row.turn_index ∧
    out.ai_id = row.ai_id ∧
    out.action_tags = row.action_tags := by
  unfold povRow_from_literalRow at h
  obtain ⟨bs, hbs, h2⟩ := exceptBind_ok h
  simp only [pure, Except.pure, Except.ok.injEq] at h2
  subst h2
  unfold get_relativeStateVector at hbs
  split at hbs
  · rename_i hlt
    have hpc : 0 < fix.player_count := by omega
    split at hbs
    · rename_i hz
      simp only [Except.ok.injEq] at hbs
      subst hbs
      refine ⟨rfl, rfl, ?_, fun _ => rfl, rfl, rfl, rfl, rfl, rfl, rfl⟩
      rw [hz]
      have hcongr : ((chunksOf fix.player_count row.board_state).map
            (fun blk => rollLeft blk 0)).flatten
          = ((chunksOf fix.player_count row.board_state).map (fun blk => blk)).flatten := by
        congr 1
        exact List.map_congr_left (fun blk _ => rollLeft_zero blk)
      rw [hcongr]
      rw [show ((chunksOf fix.player_count row.board_state).map (fun blk => blk))
          = chunksOf fix.player_count row.board_state by simp]
      exact (chunksOf_flatten fix.player_count hpc row.board_state).symm
    · rename_i hz
      simp only [Except.ok.injEq] at hbs
      subst hbs
      refine ⟨rfl, rfl, ?_, fun hcp => absurd hcp hz, rfl, rfl, rfl, rfl, rfl, rfl⟩
      exact rotBlocksLoop_eq_chunks fix.player_count row.current_player hpc
        row.board_state.length row.board_state le_rfl hdvd
  · cases hbs

def demoC5_fix : LiteralFixed :=
  { player_count := 3
    size := 1
    winner := some 2
    scores := [5, 7, 9] }

def demoC5_row : LiteralRow :=
  { turn_index := 4
    current_player := 1
    board_state := [1, 0, 0, 0, 0, 1]
    action_choices := [0, 1]
    player_action := [1, 0]
    ai_id := "ai"
    action_tags := ["t"] }

def demoC5_out : PovRow :=
  { turn_index := 4
    current_player := 1
    board_state := [0, 0, 1, 0, 1, 0]
    action_choices := [0, 1]
    player_action := [1, 0]
    ai_id := "ai"
    action_tags := ["t"]
    scores := [7, 9, 5]
    winner := some 1 }

theorem C5_pov_transform_witness :
    povRow_from_literalRow demoC5_fix demoC5_row = .ok demoC5_out ∧
    demoC5_fix.player_count ∣ demoC5_row.board_state.length ∧
    demoC5_out.winner = some 1 ∧
    demoC5_out.scores = rollLeft demoC5_fix.scores demoC5_row.current_player ∧
    demoC5_out.board_state = ((chunksOf demoC5_fix.player_count demoC5_row.board_state).map
        (fun blk => rollLeft blk demoC5_row.current_player)).flatten := by
  have h : povRow_from_literalRow demoC5_fix demoC5_row = .ok demoC5_out := by
    simp [povRow_from_literalRow, demoC5_fix, demoC5_row, demoC5_out,
      get_relativeStateVector, rotBlocksLoop, rollLeft]
  have hdvd : demoC5_fix.player_count ∣ demoC5_row.board_state.length := by decide
  have hmain := C5_pov_transform demoC5_fix demoC5_row demoC5_out h hdvd
  exact ⟨h, hdvd, hmain.1, hmain.2.1, hmain.2.2.1⟩

/- ### boardState_from_stateVector (`Engine.py`): dict-cell embedding

`boardState_from_stateVector` builds each cell as a Python dict with keys
written one at a time, so cells are embedded as association lists from
strings to a value type covering the ints and `None` the code stores.
State vectors hold only the float values 0.0 and 1.0 in this code base and
are embedded as `List Int`; `np.isclose(a, b)` at integer values `a`, `b`
is exactly `|a - b| <= atol + rtol*|b|` with `atol = 1e-8`, `rtol = 1e-5`,
i.e. `1e8*|a - b| <= 1 + 1e3*|b|` over the integers. `np.argmax` of a
boolean vector is the index of its first `True`. The trailing
`for qr in boardState` loop writes a fresh key into every cell; it never
touches an `owner` entry, so computing each count against the pre-loop
board is the mutation order of the source. -/

inductive CellVal where
  | vint (n : Int)
  | vnone
deriving DecidableEq, Repr

abbrev StrCell := List (String × CellVal)

abbrev StrBoard := List (QR × StrCell)

def dictGet (c : StrCell) (k : String) : Option CellVal :=
  (c.find? (fun e => e.1 = k)).map (fun e => e.2)

def dictSet (c : StrCell) (k : String) (v : CellVal) : StrCell :=
  if (c.find? (fun e => e.1 = k)).isSome then
    c.map (fun e => if e.1 = k then (k, v) else e)
  else c ++ [(k, v)]

def isclose (a b : Int) : Bool :=
  decide ((100000000 : Int) * |a - b| ≤ 1 + 1000 * |b|)

def blockOwner (next_tup : List Int) (i : Nat) : Except String (Option Nat) :=
  if next_tup.all (fun a => isclose a 0) then Except.ok none
  else if next_tup.any (fun a => isclose a 1) then
    Except.ok (some (next_tup.findIdx (fun a => isclose a 1)))
  else Except.error ("Missing owner at index=" ++ toString i)

def mkCellRecord (qr : QR) (owner : Option Nat) : StrCell :=
  [("q", CellVal.vint qr.1), ("r", CellVal.vint qr.2),
   ("owner", match owner with
     | none => CellVal.vnone
     | some k => CellVal.vint (k : Int))]

def adjacent_occupied_countS (qr : QR) (b : StrBoard) : Nat :=
  (adjacent_spaces qr).countP (fun p =>
    match (b.find? (fun e => e.1 = p)).map (fun e => e.2) with
    | some cell =>
      match dictGet cell "owner" with
      | some (CellVal.vint _) => true
      | _ => false
    | none => false)

def cellStep (player_count : Nat) (stateVector : List Int)
    (acc : StrBoard) (p : Nat × QR) : Except String StrBoard :=
  (blockOwner ((stateVector.drop (p.1 * player_count)).take player_count) p.1).map
    (fun owner => acc ++ [(p.2, mkCellRecord p.2 owner)])

def boardState_from_stateVector (size player_count : Nat) (stateVector : List Int) :
    Except String StrBoard :=
  ((hexQRList size).enum.foldlM (cellStep player_count stateVector) []).map
    (fun base => base.map (fun e =>
      (e.1, dictSet e.2 "adjacent_occupied"
        (CellVal.vint (adjacent_occupied_countS e.1 base)))))

theorem exceptMap_ok {α β : Type} {f : α → β} {x : Except String α} {y : β}
    (h : Except.map f x = .ok y) : ∃ a, x = .ok a ∧ y = f a := by
  cases x with
  | ok a =>
    refine ⟨a, rfl, ?_⟩
    simp only [Except.map, Except.ok.injEq] at h
    exact h.symm
  | error e => simp [Except.map] at h

theorem find?_append_none {α : Type} {l : List α} {p : α → Bool}
    (h : l.find? p = none) (l2 : List α) : (l ++ l2).find? p = l2.find? p := by
  induction l with
  | nil => rfl
  | cons a t ih =>
    cases hp : p a with
    | true => simp [List.find?_cons, hp] at h
    | false =>
      rw [List.cons_append]
      simp only [List.find?_cons, hp] at h ⊢
      exact ih h

theorem find?_map_replace (t : StrCell) (k k2 : String) (v : CellVal) (hne : k2 ≠ k) :
    (t.map (fun e => if e.1 = k then (k, v) else e)).find? (fun e => e.1 = k2)
      = t.find? (fun e => e.1 = k2) := by
  induction t with
  | nil => rfl
  | cons a t ih =>
    rw [List.map_cons, List.find?_cons, List.find?_cons]
    by_cases hak : a.1 = k
    · have h1 : (decide ((if a.1 = k then (k, v) else a).1 = k2)) = false := by
        rw [if_pos hak]
        simp only [decide_eq_false_iff_not]
        exact fun hkk => hne hkk.symm
      have h2 : (decide (a.1 = k2)) = false := by
        simp only [decide_eq_false_iff_not]
        rw [hak]
        exact fun hkk => hne hkk.symm
      rw [h1, h2]
      exact ih
    · rw [if_neg hak]
      cases hp : (decide (a.1 = k2)) with
      | true => rfl
      | false => exact ih

theorem find?_append_single (c : StrCell) (k k2 : String) (v : CellVal) (hne : k2 ≠ k) :
    (c ++ [(k, v)]).find? (fun e => e.1 = k2) = c.find? (fun e => e.1 = k2) := by
  induction c with
  | nil =>
    simp only [List.nil_append, List.find?_nil, List.find?_cons]
    have h1 : (decide ((k, v).1 = k2)) = false := by
      simp only [decide_eq_false_iff_not]
      exact fun hkk => hne hkk.symm
    rw [h1]
  | cons a t ih =>
    rw [List.cons_append, List.find?_cons, List.find?_cons]
    cases hp : (decide (a.1 = k2)) with
    | true => rfl
    | false => exact ih

theorem dictGet_dictSet_self (c : StrCell) (k : String) (v : CellVal)
    (h : dictGet c k = none) : dictGet (dictSet c k v) k = some v := by
  have hf : c.find? (fun e => e.1 = k) = none := by
    unfold dictGet at h
    cases hx : c.find? (fun e => e.1 = k) with
    | none => rfl
    | some e => rw [hx] at h; simp at h
  unfold dictSet
  rw [hf]
  simp only [Option.isSome_none, Bool.false_eq_true, if_false]
  unfold dictGet
  rw [find?_append_none hf]
  simp

theorem dictGet_dictSet_other (c : StrCell) (k k2 : String) (v : CellVal)
    (hne : k2 ≠ k) : dictGet (dictSet c k v) k2 = dictGet c k2 := by
  unfold dictSet
  by_cases hs : (c.find? (fun e => e.1 = k)).isSome
  · rw [if_pos hs]
    unfold dictGet
    rw [find?_map_replace c k k2 v hne]
  · rw [if_neg hs]
    unfold dictGet
    rw [find?_append_single c k k2 v hne]

theorem cellFold_shape (player_count : Nat) (v : List Int) :
    ∀ (pairs : List (Nat × QR)) (acc base : StrBoard),
      pairs.foldlM (cellStep player_count v) acc = .ok base →
      (∀ e ∈ acc, ∃ qr owner, e.2 = mkCellRecord qr owner) →
      ∀ e ∈ base, ∃ qr owner, e.2 = mkCellRecord qr owner := by
  intro pairs
  induction pairs with
  | nil =>
    intro acc base h hacc
    simp only [List.foldlM_nil] at h
    cases h
    exact hacc
  | cons p rest ih =>
    intro acc base h hacc
    rw [List.foldlM_cons] at h
    obtain ⟨acc2, hstep, hrest⟩ := exceptBind_ok h
    obtain ⟨owner, _, hacc2⟩ := exceptMap_ok hstep
    subst hacc2
    apply ih _ _ hrest
    intro e he
    rcases List.mem_append.mp he with h1 | h2
    · exact hacc e h1
    · rw [List.mem_singleton.mp h2]
      exact ⟨p.2, owner, rfl⟩

theorem countS_map_preserve (qr : QR) (base : StrBoard) (f : QR × StrCell → StrCell)
    (hf : ∀ e, dictGet (f e) "owner" = dictGet e.2 "owner") :
    adjacent_occupied_countS qr (base.map (fun e => (e.1, f e)))
      = adjacent_occupied_countS qr base := by
  unfold adjacent_occupied_countS
  apply List.countP_congr
  intro p _
  have hfind : (base.map (fun e => (e.1, f e))).find? (fun e => e.1 = p)
      = (base.find? (fun e => e.1 = p)).map (fun e => (e.1, f e)) := by
    induction base with
    | nil => rfl
    | cons a t ih =>
      rw [List.map_cons, List.find?_cons, List.find?_cons]
      cases hp : (decide (a.1 = p)) with
      | true => rfl
      | false => exact ih
  rw [hfind]
  cases hb : base.find? (fun e => e.1 = p) with
  | none => rfl
  | some e =>
    simp only [Option.map_some']
    rw [hf e]

/-- C9: every cell of a board returned by `boardState_from_stateVector`
stores its neighbour-occupancy count under the key `"adjacent_occupied"`
and has no `"occupied_adjacent"` entry at all — the key every other engine
operation uses (`get_potential_moves`, `new_initial_boardState` and
`applyUpdate_literal` read and write the structure field
`occupied_adjacent` in this development, transcribing the string key of
the source). -/
theorem C9_adjacent_key_mismatch (size player_count : Nat) (v : List Int)
    (board : StrBoard)
    (h : boardState_from_stateVector size player_count v = .ok board) :
    ∀ e ∈ board,
      dictGet e.2 "adjacent_occupied"
        = some (CellVal.vint (adjacent_occupied_countS e.1 board)) ∧
      dictGet e.2 "occupied_adjacent" = none := by
  unfold boardState_from_stateVector at h
  obtain ⟨base, hbase, hb⟩ := exceptMap_ok h
  subst hb
  intro e he
  obtain ⟨b0, hb0, hbe⟩ := List.mem_map.mp he
  obtain ⟨qr, owner, hcell⟩ := cellFold_shape player_count v _ [] base hbase (by simp) b0 hb0
  have hnone_adj : dictGet b0.2 "adjacent_occupied" = none := by
    rw [hcell]
    cases owner <;> simp [mkCellRecord, dictGet]
  have hnone_occ : dictGet b0.2 "occupied_adjacent" = none := by
    rw [hcell]
    cases owner <;> simp [mkCellRecord, dictGet]
  have hcount : adjacent_occupied_countS b0.1 (base.map (fun e =>
        (e.1, dictSet e.2 "adjacent_occupied"
          (CellVal.vint (adjacent_occupied_countS e.1 base)))))
      = adjacent_occupied_countS b0.1 base := by
    apply countS_map_preserve
    intro e2
    exact dictGet_dictSet_other e2.2 "adjacent_occupied" "owner" _ (by decide)
  subst hbe
  dsimp only
  constructor
  · rw [dictGet_dictSet_self _ _ _ hnone_adj]
    rw [hcount]
  · rw [dictGet_dictSet_other _ _ _ _ (by decide)]
    exact hnone_occ

def demoC9_cell : StrCell :=
  [("q", CellVal.vint 0), ("r", CellVal.vint 0), ("owner", CellVal.vint 0),
   ("adjacent_occupied", CellVal.vint 0)]

def demoC9_board : StrBoard := [((0, 0), demoC9_cell)]

theorem C9_adjacent_key_mismatch_witness :
    boardState_from_stateVector 1 1 [1] = .ok demoC9_board ∧
    dictGet demoC9_cell "adjacent_occupied"
      = some (CellVal.vint (adjacent_occupied_countS (0, 0) demoC9_board)) ∧
    dictGet demoC9_cell "occupied_adjacent" = none := by
  have h : boardState_from_stateVector 1 1 [1] = .ok demoC9_board := by rfl
  have h2 := C9_adjacent_key_mismatch 1 1 [1] demoC9_board h ((0, 0), demoC9_cell)
    (by simp [demoC9_board])
  exact ⟨h, h2.1, h2.2⟩

theorem exceptErrOrOk {α : Type} (x : Except String α) :
    (∃ e, x = .error e) ↔ ¬ ∃ b, x = .ok b := by
  cases x <;> simp

theorem exceptMap_error_iff {α β : Type} (f : α → β) (x : Except String α) :
    (∃ e, Except.map f x = .error e) ↔ ∃ e, x = .error e := by
  cases x <;> simp [Except.map]

theorem blockOwner_error_iff (tup : List Int) (i : Nat) :
    (¬ ∃ o, blockOwner tup i = .ok o) ↔
      (¬ tup.all (fun a => isclose a 0) ∧ ¬ tup.any (fun a => isclose a 1)) := by
  cases h0 : tup.all (fun a => isclose a 0) with
  | true => simp [blockOwner, h0]
  | false =>
    cases h1 : tup.any (fun a => isclose a 1) with
    | true => simp [blockOwner, h0, h1]
    | false => simp [blockOwner, h0, h1]

theorem cellFold_ok_iff (player_count : Nat) (v : List Int) :
    ∀ (pairs : List (Nat × QR)) (acc : StrBoard),
      (∃ b, pairs.foldlM (cellStep player_count v) acc = .ok b) ↔
      ∀ p ∈ pairs, ∃ o,
        blockOwner ((v.drop (p.1 * player_count)).take player_count) p.1 = .ok o := by
  intro pairs
  induction pairs with
  | nil =>
    intro acc
    simp [List.foldlM_nil, pure, Except.pure]
  | cons p rest ih =>
    intro acc
    rw [List.foldlM_cons]
    constructor
    · rintro ⟨b, hb⟩
      obtain ⟨acc2, hstep, hrest⟩ := exceptBind_ok hb
      obtain ⟨o, hbo, _⟩ := exceptMap_ok hstep
      intro q hq
      rcases List.mem_cons.mp hq with h1 | h2
      · subst h1
        exact ⟨o, hbo⟩
      · exact ((ih _).mp ⟨b, hrest⟩) q h2
    · intro hall
      obtain ⟨o, ho⟩ := hall p (List.mem_cons_self p rest)
      have hstep : cellStep player_count v acc p
          = .ok (acc ++ [(p.2, mkCellRecord p.2 o)]) := by
        unfold cellStep
        rw [ho]
        rfl
      obtain ⟨b, hb⟩ := (ih (acc ++ [(p.2, mkCellRecord p.2 o)])).mpr
        (fun q hq => hall q (List.mem_cons_of_mem p hq))
      refine ⟨b, ?_⟩
      rw [hstep]
      simpa [Bind.bind, Except.bind] using hb

theorem enum_fst_mem {α : Type} (l : List α) (i : Nat) :
    (∃ p ∈ l.enum, p.1 = i) ↔ i < l.length := by
  constructor
  · rintro ⟨p, hp, rfl⟩
    rw [← List.mem_range, ← List.enum_map_fst]
    exact List.mem_map_of_mem Prod.fst hp
  · intro hi
    have hmem : i ∈ l.enum.map Prod.fst := by
      rw [List.enum_map_fst, List.mem_range]
      exact hi
    obtain ⟨p, hp, hpi⟩ := List.mem_map.mp hmem
    exact ⟨p, hp, hpi⟩

/-- C6 (amended): `boardState_from_stateVector` raises exactly when some
`player_count`-wide block of the vector is neither all-close-to-0.0 nor has
any entry close to 1.0; a block with two entries equal to 1.0 is NOT
rejected (the code takes the argmax, i.e. the first such entry, as owner —
see the accompanying counterexample). -/
theorem C6_invalid_block_error (size player_count : Nat) (v : List Int) :
    (∃ e, boardState_from_stateVector size player_count v = .error e) ↔
    ∃ i, i < (hexQRList size).length ∧
      ¬ ((v.drop (i * player_count)).take player_count).all (fun a => isclose a 0) ∧
      ¬ ((v.drop (i * player_count)).take player_count).any (fun a => isclose a 1) := by
  unfold boardState_from_stateVector
  rw [exceptMap_error_iff]
  rw [exceptErrOrOk]
  rw [cellFold_ok_iff player_count v (hexQRList size).enum []]
  constructor
  · intro h
    push_neg at h
    obtain ⟨p, hp, hnp⟩ := h
    refine ⟨p.1, (enum_fst_mem (hexQRList size) p.1).mp ⟨p, hp, rfl⟩, ?_⟩
    exact (blockOwner_error_iff _ p.1).mp (fun ⟨o, ho⟩ => hnp o ho)
  · rintro ⟨i, hi, hc⟩
    obtain ⟨p, hp, hpi⟩ := (enum_fst_mem (hexQRList size) i).mpr hi
    intro hall
    have hpo := hall p hp
    rw [hpi] at hpo
    exact (blockOwner_error_iff _ i).mpr hc hpo

theorem C6_two_hot_block_accepted :
    (∃ b, boardState_from_stateVector 1 2 [1, 1] = .ok b) ∧
    ([1, 1] : List Int).countP (fun a => isclose a 1) = 2 ∧
    ¬ (([1, 1] : List Int).all (fun a => isclose a 0)) := by
  exact ⟨⟨_, rfl⟩, by decide, by decide⟩

/- ### jable.py: fromFile strict key check and JyFrame.append

`fromFile` checks the loaded document's top-level keys against the literal
list `_REQUIRED_KEYS` as written in the source, apostrophe included; the
writer `as_dict` emits the keys `_fixed`, `_shift`, `_shiftIndex`,
`_keyTypes`, `_meta`. `JyFrame.append` is embedded over a value type
covering `None`, ints, strings and bools; dicts are association lists in
insertion order, `list.index`/`in` are first-index search, and Python
`assert` failures are `Except.error`. -/

def _REQUIRED_KEYS : List String :=
  ["_fixed", "_shift", "_shiftIndex", "_keyTypes\x27", "_meta"]

def as_dict_KEYS : List String :=
  ["_fixed", "_shift", "_shiftIndex", "_keyTypes", "_meta"]

def strictKeyCheck (dataKeys : List String) : Except String Unit :=
  if _REQUIRED_KEYS.any (fun key => !(dataKeys.contains key)) then
    Except.error ("Unrecognized file keys")
  else if dataKeys.any (fun key => !(_REQUIRED_KEYS.contains key)) then
    Except.error ("Unrecognized file keys")
  else Except.ok ()

inductive PyVal where
  | pnone
  | pint (n : Int)
  | pstr (s : String)
  | pbool (b : Bool)
deriving DecidableEq, Repr

structure JyFrame where
  fixed : List (String × PyVal)
  shift : List (String × List PyVal)
  shiftIndex : List (String × List PyVal)
  len : Nat
deriving DecidableEq, Repr

def assocGet {β : Type} (l : List (String × β)) (k : String) : Option β :=
  (l.find? (fun e => e.1 = k)).map (fun e => e.2)

def assocSet {β : Type} (l : List (String × β)) (k : String) (v : β) :
    List (String × β) :=
  if (l.find? (fun e => e.1 = k)).isSome then
    l.map (fun e => if e.1 = k then (k, v) else e)
  else l ++ [(k, v)]

def fixedCheck (fixed row : List (String × PyVal)) : Except String Unit :=
  fixed.foldlM (fun _ e =>
    match assocGet row e.1 with
    | none => Except.ok ()
    | some v => if v = e.2 then Except.ok () else Except.error ("AssertionError")) ()

def shiftColAppend (shift : List (String × List PyVal)) (key : String) (v : PyVal) :
    List (String × List PyVal) :=
  shift.map (fun e => if e.1 = key then (e.1, e.2 ++ [v]) else e)

def appendShiftVal (jf : JyFrame) (key : String) (val : PyVal) : JyFrame :=
  if val = PyVal.pnone then
    { jf with shift := shiftColAppend jf.shift key PyVal.pnone }
  else
    match assocGet jf.shiftIndex key with
    | some vocab =>
      match vocab.findIdx? (fun x => x = val) with
      | some i => { jf with shift := shiftColAppend jf.shift key (PyVal.pint i) }
      | none =>
        { jf with
          shift := shiftColAppend jf.shift key (PyVal.pint vocab.length)
          shiftIndex := assocSet jf.shiftIndex key (vocab ++ [val]) }
    | none => { jf with shift := shiftColAppend jf.shift key val }

def bumpLen (jf : JyFrame) : JyFrame :=
  { jf with len := jf.len + 1 }

def JyFrame.append (jf : JyFrame) (row : List (String × PyVal)) (strict : Bool) :
    Except String JyFrame :=
  (fixedCheck jf.fixed row) >>= fun _ =>
  if strict then
    if row.all (fun e =>
        ((jf.fixed.map (fun f => f.1)) ++ (jf.shift.map (fun s => s.1))).contains e.1) then
      Except.ok (bumpLen (row.foldl (fun jf2 e =>
        if (assocGet jf2.fixed e.1).isSome then jf2 else appendShiftVal jf2 e.1 e.2) jf))
    else Except.error ("AssertionError")
  else
    Except.ok (bumpLen ((jf.shift.map (fun s => s.1)).foldl (fun jf2 key =>
      match assocGet row key with
      | none => { jf2 with shift := shiftColAppend jf2.shift key PyVal.pnone }
      | some val => appendShiftVal jf2 key val) jf))

/-- C7: code bug — `_REQUIRED_KEYS` in `fromFile` contains the typo
`"_keyTypes\x27"` (stray apostrophe), so the strict key check rejects every
document whose top-level keys lack that misspelled key; in particular it
rejects every document with exactly the five keys `as_dict` writes
(`_fixed`, `_shift`, `_shiftIndex`, `_keyTypes`, `_meta`), which the claim
says must be accepted. -/
theorem C7_strict_rejects_correct_keys (dataKeys : List String)
    (h : dataKeys.contains "_keyTypes\x27" = false) :
    ∃ e, strictKeyCheck dataKeys = .error e := by
  have hc : _REQUIRED_KEYS.any (fun key => !(dataKeys.contains key)) = true := by
    rw [List.any_eq_true]
    refine ⟨"_keyTypes\x27", by simp [_REQUIRED_KEYS], ?_⟩
    rw [h]
    rfl
  unfold strictKeyCheck
  rw [if_pos hc]
  exact ⟨_, rfl⟩

theorem C7_strict_rejects_correct_keys_witness :
    as_dict_KEYS.contains "_keyTypes\x27" = false ∧
    ∃ e, strictKeyCheck as_dict_KEYS = .error e :=
  ⟨by decide, C7_strict_rejects_correct_keys as_dict_KEYS (by decide)⟩

theorem fixedCheck_error (fixed row : List (String × PyVal))
    (h : ∃ p ∈ fixed, ∃ rv, assocGet row p.1 = some rv ∧ rv ≠ p.2) :
    ∃ e, fixedCheck fixed row = .error e := by
  induction fixed with
  | nil =>
    obtain ⟨p, hp, _⟩ := h
    exact absurd hp (List.not_mem_nil p)
  | cons a t ih =>
    unfold fixedCheck
    rw [List.foldlM_cons]
    cases ha : assocGet row a.1 with
    | none =>
      obtain ⟨p, hp, rv, hrv, hne⟩ := h
      rcases List.mem_cons.mp hp with h1 | h2
      · subst h1
        rw [ha] at hrv
        cases hrv
      · obtain ⟨e, he⟩ := ih ⟨p, h2, rv, hrv, hne⟩
        refine ⟨e, ?_⟩
        unfold fixedCheck at he
        simpa [Bind.bind, Except.bind] using he
    | some v =>
      dsimp only
      by_cases hv : v = a.2
      · rw [if_pos hv]
        obtain ⟨p, hp, rv, hrv, hne⟩ := h
        rcases List.mem_cons.mp hp with h1 | h2
        · subst h1
          rw [ha] at hrv
          cases hrv
          exact absurd hv hne
        · obtain ⟨e, he⟩ := ih ⟨p, h2, rv, hrv, hne⟩
          refine ⟨e, ?_⟩
          unfold fixedCheck at he
          simpa [Bind.bind, Except.bind] using he
      · rw [if_neg hv]
        exact ⟨_, rfl⟩

theorem fixedCheck_ok (fixed row : List (String × PyVal))
    (h : ∀ p ∈ fixed, ∀ rv, assocGet row p.1 = some rv → rv = p.2) :
    fixedCheck fixed row = .ok () := by
  induction fixed with
  | nil => rfl
  | cons a t ih =>
    unfold fixedCheck
    rw [List.foldlM_cons]
    have hrest : fixedCheck t row = .ok () :=
      ih (fun p hp => h p (List.mem_cons_of_mem a hp))
    unfold fixedCheck at hrest
    cases ha : assocGet row a.1 with
    | none => simpa [Bind.bind, Except.bind] using hrest
    | some v =>
      dsimp only
      rw [if_pos (h a (List.mem_cons_self a t) v ha)]
      simpa [Bind.bind, Except.bind] using hrest

theorem appendShiftVal_len (jf : JyFrame) (key : String) (val : PyVal) :
    (appendShiftVal jf key val).len = jf.len := by
  unfold appendShiftVal
  split
  · rfl
  · split
    · split
      · rfl
      · rfl
    · rfl

theorem foldAppend_len {β : Type} (f : JyFrame → β → JyFrame)
    (hf : ∀ jf b, (f jf b).len = jf.len) :
    ∀ (l : List β) (jf : JyFrame), (l.foldl f jf).len = jf.len := by
  intro l
  induction l with
  | nil => intro jf; rfl
  | cons b t ih =>
    intro jf
    rw [List.foldl_cons, ih, hf]

/-- C10 (amended): `JyFrame.append` raises on any row value that differs
from the table's stored fixed value at the same key, for both `strict`
values; and when no fixed key mismatches AND (in strict mode) every row key
is a recognized column, `append` returns a table whose row count grew by
exactly one. In strict mode an unrecognized row key makes `append` raise
even with no fixed mismatch (see the accompanying counterexample), so the
claim's unconditional "grows by one" clause is false as stated. -/
theorem C10_append_semantics (jf : JyFrame) (row : List (String × PyVal)) (strict : Bool) :
    ((∃ p ∈ jf.fixed, ∃ rv, assocGet row p.1 = some rv ∧ rv ≠ p.2) →
      ∃ e, JyFrame.append jf row strict = .error e) ∧
    ((∀ p ∈ jf.fixed, ∀ rv, assocGet row p.1 = some rv → rv = p.2) →
      (strict = true → row.all (fun e =>
        ((jf.fixed.map (fun f => f.1)) ++ (jf.shift.map (fun s => s.1))).contains e.1)) →
      ∃ jf2, JyFrame.append jf row strict = .ok jf2 ∧ jf2.len = jf.len + 1) := by
  constructor
  · intro h
    obtain ⟨e, he⟩ := fixedCheck_error jf.fixed row h
    refine ⟨e, ?_⟩
    unfold JyFrame.append
    rw [he]
    rfl
  · intro hnomis hkeys
    have hok : fixedCheck jf.fixed row = .ok () := fixedCheck_ok jf.fixed row hnomis
    unfold JyFrame.append
    rw [hok]
    cases strict with
    | true =>
      rw [if_pos (hkeys rfl)]
      simp only [Bind.bind, Except.bind]
      refine ⟨_, rfl, ?_⟩
      unfold bumpLen
      simp only
      rw [foldAppend_len]
      intro jf2 e
      by_cases hf : (assocGet jf2.fixed e.1).isSome
      · rw [if_pos hf]
      · rw [if_neg hf]
        exact appendShiftVal_len jf2 e.1 e.2
    | false =>
      simp only [Bind.bind, Except.bind]
      refine ⟨_, by rw [if_neg (by simp)], ?_⟩
      unfold bumpLen
      simp only
      rw [foldAppend_len]
      intro jf2 key
      cases hk : assocGet row key with
      | none => rfl
      | some val => exact appendShiftVal_len jf2 key val

def demoC10_jf : JyFrame :=
  { fixed := [("a", PyVal.pint 1)]
    shift := [("b", [])]
    shiftIndex := []
    len := 0 }

def demoC10_row : List (String × PyVal) := [("c", PyVal.pint 2)]

theorem C10_strict_unknown_key_errors :
    demoC10_jf.fixed.all (fun p => assocGet demoC10_row p.1 = none) = true ∧
    ∃ e, JyFrame.append demoC10_jf demoC10_row true = .error e := by
  refine ⟨by decide, ⟨"AssertionError", ?_⟩⟩
  rfl

def demoC10_badrow : List (String × PyVal) := [("a", PyVal.pint 2)]

def demoC10_goodrow : List (String × PyVal) := [("b", PyVal.pstr "x")]

theorem C10_append_semantics_witness :
    (∃ e, JyFrame.append demoC10_jf demoC10_badrow true = .error e) ∧
    (∃ jf2, JyFrame.append demoC10_jf demoC10_goodrow true = .ok jf2 ∧
      jf2.len = demoC10_jf.len + 1) := by
  constructor
  · refine (C10_append_semantics demoC10_jf demoC10_badrow true).1 ?_
    refine ⟨("a", PyVal.pint 1), by simp [demoC10_jf], PyVal.pint 2, ?_, by decide⟩
    rfl
  · refine (C10_append_semantics demoC10_jf demoC10_goodrow true).2 ?_ ?_
    · intro p hp rv hrv
      have hp2 : p = ("a", PyVal.pint 1) := by
        simpa [demoC10_jf] using hp
      rw [hp2] at hrv
      simp [assocGet, demoC10_goodrow] at hrv
    · intro _
      decide
